import Mathlib

/-!
# Verification of the added-lines diff pipeline of AI-Powered-PR-Analyzer

This file is a shallow embedding, in Lean 4, of the diff-derivation and
data-shaping core of the repository:

* `src/azdo_client.py` — `AzureDevOpsClient.get_pr_added_lines_only`, which
  classifies per-file changes of a pull request and, for `edit` changes,
  computes the added lines with `difflib.Differ().compare` (CPython 3.11
  `difflib`, embedded faithfully below: `SequenceMatcher` with
  `autojunk=True`, `find_longest_match`, `get_matching_blocks`,
  `get_opcodes`, and `Differ` with `_fancy_replace` / `_plain_replace` /
  `_qformat`);
* `src/data_formatter.py` — `DataFormatter.format_file_contents` (per-file
  line statistics) and `DataFormatter._extract_text_from_adf` (flattening of
  an Atlassian Document Format tree);
* `src/ai_analyzer.py` — `AIAnalyzer._truncate_text`.

Modelling conventions:

* Python line/character sequences are `List String` / `List Char`; machine
  integers are `Nat`/`Int` (Python integers are unbounded, so no wrap-around
  modelling is needed).
* Python dictionaries indexed by consecutive integers (`j2len` in
  `find_longest_match`) are total functions `Nat → Nat` defaulting to `0`,
  matching `dict.get(key, 0)`.
* Python `while` loops and the worklist recursion of `get_matching_blocks`
  are written with an explicit fuel argument; every fuel value passed at a
  call site is (comment-)justified to dominate the number of iterations the
  Python loop can perform, so the embedded functions agree with the source.
* `difflib`'s similarity ratios are floats in Python; they are modelled as
  exact rationals (`ℚ`).  The cutoff `0.75` is exactly representable in
  binary floating point; the initial bound `0.74` is not, so the model uses
  the exact rational `74/100` — a deliberate, commented approximation.  None
  of the theorems below depends on a ratio comparison.
* A tagged delta line `'%s %s' % (tag, text)` produced by `Differ._dump` /
  `_qformat` is modelled as the pair `(tag, text) : Char × String`; the
  extraction `[line[2:] for line in diff if line.startswith('+ ')]` from
  `get_pr_added_lines_only` becomes "keep the pairs whose tag is `'+'` and
  project the text".
* The HTTP fetches of `get_pr_added_lines_only` are inputs: the pull-request
  metadata and diff changeset are `Option`-typed arguments (`None` models a
  failed fetch) and blob retrieval is a function `String → Option String`
  from object ids to contents (`get_file_content` uses only the version
  descriptor to address the blob; the path argument appears only in its
  error message).
-/

/-! ## Python `str.splitlines`

`content.splitlines()` in `get_pr_added_lines_only`.  Python splits on
`\n`, `\r`, `\r\n`, `\v`, `\f`, `\x1c`, `\x1d`, `\x1e`, `\x85`, ` `,
` `, and does not produce a final empty line for a trailing break. -/

def pyIsLineBreak (c : Char) : Bool :=
  c = '\n' || c = '\r' || c = '\x0b' || c = '\x0c' || c = '\x1c' ||
  c = '\x1d' || c = '\x1e' || c = '\x85' || c = ' ' || c = ' '

def pySplitlinesGo : List Char → List Char → List (List Char)
  | [], acc => if acc.isEmpty then [] else [acc.reverse]
  | '\r' :: '\n' :: rest, acc => acc.reverse :: pySplitlinesGo rest []
  | c :: rest, acc =>
      if pyIsLineBreak c then acc.reverse :: pySplitlinesGo rest []
      else pySplitlinesGo rest (c :: acc)

def pySplitlines (s : String) : List String :=
  (pySplitlinesGo s.data []).map (fun cs => String.mk cs)

/-! ## `difflib.SequenceMatcher` (CPython 3.11), generic over the element type

The matcher is used at two element types by the program: lines (`String`,
with `isjunk=None`, i.e. no junk) inside `Differ.compare`, and characters
(`Char`, with `isjunk=IS_CHARACTER_JUNK`) inside `Differ._fancy_replace`.
`autojunk` is `True` at both call sites. -/

section SequenceMatcher

variable {α : Type} [DecidableEq α] [Inhabited α]

/-- The positions (in increasing order) at which `x` occurs in `b`:
the list `b2j[x]` built by `SequenceMatcher.__chain_b` before junk and
popular elements are purged. -/
def elemPositions (b : List α) (x : α) : List Nat :=
  (List.range b.length).filter (fun j => decide (b.get? j = some x))

/-- `self.bjunk.__contains__ x`: `x` is a junk element occurring in `b`. -/
def isbjunk (junk : α → Bool) (b : List α) (x : α) : Bool :=
  junk x && decide (x ∈ b)

/-- `self.b2j` as a function: the occurrence list of `x` in `b`, emptied when
`x` is junk or (with `autojunk`, for `len(b) >= 200`) popular, i.e. occurs
more than `len(b) // 100 + 1` times (`SequenceMatcher.__chain_b`). -/
def b2jMap (junk : α → Bool) (b : List α) (x : α) : List Nat :=
  if junk x && decide (x ∈ b) then []
  else if 200 ≤ b.length ∧ b.length / 100 + 1 < (elemPositions b x).length then []
  else elemPositions b x

/-- Inner loop of `find_longest_match` over `b2j.get(a[i], nothing)`:
state is the `newj2len` dict under construction and the current
`(besti, bestj, bestsize)`; `j2lenOld` is the previous row's `j2len`.
`j < blo` is `continue`; `j >= bhi` is `break` (returning the state).
`i + 1 - k` is Python's `i - k + 1` (the invariant `k ≤ i + 1` holds
whenever the update fires, so the `Nat` subtraction is exact). -/
def flmInner (j2lenOld : Nat → Nat) (blo bhi i : Nat) :
    List Nat → (Nat → Nat) → Nat × Nat × Nat → (Nat → Nat) × (Nat × Nat × Nat)
  | [], nj, best => (nj, best)
  | j :: js, nj, best =>
      if j < blo then flmInner j2lenOld blo bhi i js nj best
      else if bhi ≤ j then (nj, best)
      else
        let k := (if j = 0 then 0 else j2lenOld (j - 1)) + 1
        let nj' := fun j' => if j' = j then k else nj j'
        let best' := if best.2.2 < k then (i + 1 - k, j + 1 - k, k) else best
        flmInner j2lenOld blo bhi i js nj' best'

/-- One iteration of the row loop `for i in range(alo, ahi)` of
`find_longest_match`: run the inner loop on `b2j[a[i]]` starting from an
empty `newj2len` and the current best, then adopt the produced `newj2len`
as the next row's `j2len`. -/
def flmRowStep (junk : α → Bool) (a b : List α) (blo bhi : Nat)
    (st : (Nat → Nat) × (Nat × Nat × Nat)) (i : Nat) :
    (Nat → Nat) × (Nat × Nat × Nat) :=
  flmInner st.1 blo bhi i (b2jMap junk b (a.getD i default)) (fun _ => 0) st.2

/-- The two backward extension `while` loops of `find_longest_match`
(`junkPhase = false` for the non-junk loop, `true` for the junk loop).
Fuel: each iteration decreases `besti` by one and the guard requires
`alo < besti`, so `besti` itself is an upper bound on the iteration count;
every call below passes the current `besti` as fuel. -/
def extBack (junk : α → Bool) (a b : List α) (alo blo : Nat) (junkPhase : Bool) :
    Nat → Nat × Nat × Nat → Nat × Nat × Nat
  | 0, st => st
  | fuel + 1, (bi, bj, bs) =>
      if alo < bi ∧ blo < bj ∧ isbjunk junk b (b.getD (bj - 1) default) = junkPhase ∧
          a.getD (bi - 1) default = b.getD (bj - 1) default then
        extBack junk a b alo blo junkPhase fuel (bi - 1, bj - 1, bs + 1)
      else (bi, bj, bs)

/-- The two forward extension `while` loops of `find_longest_match`.
Fuel: each iteration increases `bestsize` by one and the guard requires
`besti + bestsize < ahi`, so `ahi` iterations can never be reached; every
call below passes `ahi` as fuel. -/
def extFwd (junk : α → Bool) (a b : List α) (ahi bhi : Nat) (junkPhase : Bool) :
    Nat → Nat × Nat × Nat → Nat × Nat × Nat
  | 0, st => st
  | fuel + 1, (bi, bj, bs) =>
      if bi + bs < ahi ∧ bj + bs < bhi ∧ isbjunk junk b (b.getD (bj + bs) default) = junkPhase ∧
          a.getD (bi + bs) default = b.getD (bj + bs) default then
        extFwd junk a b ahi bhi junkPhase fuel (bi, bj, bs + 1)
      else (bi, bj, bs)

/-- `SequenceMatcher.find_longest_match(alo, ahi, blo, bhi)`: the dynamic
programming loop over rows `alo..ahi-1`, then the four extension loops
(non-junk backward, non-junk forward, junk backward, junk forward). -/
def find_longest_match (junk : α → Bool) (a b : List α) (alo ahi blo bhi : Nat) :
    Nat × Nat × Nat :=
  let st := (List.range' alo (ahi - alo)).foldl (flmRowStep junk a b blo bhi)
    ((fun _ => 0), (alo, blo, 0))
  let m1 := extBack junk a b alo blo false st.2.1 st.2
  let m2 := extFwd junk a b ahi bhi false ahi m1
  let m3 := extBack junk a b alo blo true m2.1 m2
  extFwd junk a b ahi bhi true ahi m3

/-- The worklist recursion of `SequenceMatcher.get_matching_blocks`.  The
Python version keeps a LIFO `queue` of regions and sorts the collected
blocks at the end; since the regions on the queue are pairwise disjoint and
processed independently, this equals recursing left-then-right, which
already emits the blocks in sorted order (each recursive block lies
strictly inside its region, and the left region precedes the matched block,
which precedes the right region, in both coordinates).
Fuel: each recursive call strictly decreases `(ahi - alo) + (bhi - blo)`
(the match satisfies `alo ≤ i ≤ i + k ≤ ahi`, `blo ≤ j ≤ j + k ≤ bhi`, and
the recursion only happens for `k ≥ 1`), so the `a.length + b.length + 1`
fuel supplied by `get_matching_blocks` below dominates the recursion
depth. -/
def matchBlocksGo (junk : α → Bool) (a b : List α) :
    Nat → Nat → Nat → Nat → Nat → List (Nat × Nat × Nat)
  | 0, _, _, _, _ => []
  | fuel + 1, alo, ahi, blo, bhi =>
      let m := find_longest_match junk a b alo ahi blo bhi
      let i := m.1
      let j := m.2.1
      let k := m.2.2
      if k = 0 then []
      else
        (if alo < i ∧ blo < j then matchBlocksGo junk a b fuel alo i blo j else [])
          ++ [(i, j, k)] ++
          (if i + k < ahi ∧ j + k < bhi then matchBlocksGo junk a b fuel (i + k) ahi (j + k) bhi
           else [])

/-- The adjacent-block collapsing pass at the end of
`get_matching_blocks` (`i1 = j1 = k1 = 0; non_adjacent = []; for ...`). -/
def mergeAdjacent : List (Nat × Nat × Nat) → Nat × Nat × Nat →
    List (Nat × Nat × Nat) → List (Nat × Nat × Nat)
  | [], (i1, j1, k1), acc => if k1 ≠ 0 then acc ++ [(i1, j1, k1)] else acc
  | (i2, j2, k2) :: rest, (i1, j1, k1), acc =>
      if i1 + k1 = i2 ∧ j1 + k1 = j2 then mergeAdjacent rest (i1, j1, k1 + k2) acc
      else if k1 ≠ 0 then mergeAdjacent rest (i2, j2, k2) (acc ++ [(i1, j1, k1)])
      else mergeAdjacent rest (i2, j2, k2) acc

/-- `SequenceMatcher.get_matching_blocks()`: recursive longest-match
splitting, adjacent-block collapsing, and the `(len(a), len(b), 0)`
sentinel. -/
def get_matching_blocks (junk : α → Bool) (a b : List α) : List (Nat × Nat × Nat) :=
  mergeAdjacent (matchBlocksGo junk a b (a.length + b.length + 1) 0 a.length 0 b.length)
    (0, 0, 0) [] ++ [(a.length, b.length, 0)]

/-- The loop body of `SequenceMatcher.get_opcodes()`: `i`/`j` track the end
of the last emitted range. -/
def opcodesGo : List (Nat × Nat × Nat) → Nat → Nat → List (String × Nat × Nat × Nat × Nat)
  | [], _, _ => []
  | (ai, bj, size) :: rest, i, j =>
      (if i < ai ∧ j < bj then [("replace", i, ai, j, bj)]
       else if i < ai then [("delete", i, ai, j, bj)]
       else if j < bj then [("insert", i, ai, j, bj)]
       else [])
        ++ (if size ≠ 0 then [("equal", ai, ai + size, bj, bj + size)] else [])
        ++ opcodesGo rest (ai + size) (bj + size)

/-- `SequenceMatcher.get_opcodes()`. -/
def get_opcodes (junk : α → Bool) (a b : List α) : List (String × Nat × Nat × Nat × Nat) :=
  opcodesGo (get_matching_blocks junk a b) 0 0

/-- `difflib._calculate_ratio(nmatch, length)` (floats modelled as ℚ). -/
def calcRatioValue (nmatch length : Nat) : ℚ :=
  if length ≠ 0 then (2 * nmatch : ℚ) / length else 1

/-- `SequenceMatcher.ratio()`: `2M/T` where `M` sums the matched block
sizes. -/
def ratioValue (junk : α → Bool) (a b : List α) : ℚ :=
  calcRatioValue (((get_matching_blocks junk a b).map (fun t => t.2.2)).sum)
    (a.length + b.length)

/-- The `avail` loop of `SequenceMatcher.quick_ratio()`; `avail` is the
Python dict (`none` = key absent), `fullbcount.get(elt, 0)` is
`b.count elt`. -/
def quickRatioGo (b : List α) : List α → (α → Option Int) → Nat → Nat
  | [], _, nmatch => nmatch
  | x :: rest, avail, nmatch =>
      let numb : Int := match avail x with
        | some v => v
        | none => (b.count x : Int)
      quickRatioGo b rest (fun y => if y = x then some (numb - 1) else avail y)
        (if 0 < numb then nmatch + 1 else nmatch)

/-- `SequenceMatcher.quick_ratio()` (an upper bound on `ratio()`, used only
to short-circuit the comparisons in `_fancy_replace`). -/
def quickRatioValue (a b : List α) : ℚ :=
  calcRatioValue (quickRatioGo b a (fun _ => none) 0) (a.length + b.length)

/-- `SequenceMatcher.real_quick_ratio()`. -/
def realQuickRatioValue (a b : List α) : ℚ :=
  calcRatioValue (min a.length b.length) (a.length + b.length)

end SequenceMatcher

/-! ## `difflib.Differ` (CPython 3.11)

`Differ()` is constructed with `linejunk=None` and
`charjunk=IS_CHARACTER_JUNK`.  Delta lines `'<tag> <text>'` are modelled as
`(tag, text)` pairs (see the header). -/

/-- `linejunk=None`: no line is junk. -/
def lnJunk : String → Bool := fun _ => false

/-- `IS_CHARACTER_JUNK(ch, ws=" \t")`. -/
def charJunk : Char → Bool := fun c => c = ' ' || c = '\t'

/-- `Differ._dump(tag, x, lo, hi)`: tagged copies of `x[lo:hi]`. -/
def dumpTagged (tag : Char) (x : List String) (lo hi : Nat) : List (Char × String) :=
  ((x.take hi).drop lo).map (fun s => (tag, s))

/-- `Differ._plain_replace`. -/
def plainReplace (a : List String) (alo ahi : Nat) (b : List String) (blo bhi : Nat) :
    List (Char × String) :=
  if bhi - blo < ahi - alo then dumpTagged '+' b blo bhi ++ dumpTagged '-' a alo ahi
  else dumpTagged '-' a alo ahi ++ dumpTagged '+' b blo bhi

/-- The inner `for i in range(alo, ahi)` loop of the best-ratio search in
`Differ._fancy_replace`; state is `((best_ratio, best_i, best_j), (eqi, eqj))`.
Identical pairs record `eqi` (first only) and are skipped; the chained
`real_quick_ratio/quick_ratio/ratio` comparisons are reproduced as written
(the two quick bounds dominate `ratio`, so the conjunction is equivalent to
its last test, but we keep the source's form). -/
def fancyScanInner (a : List String) (bj : String) (j : Nat) :
    List Nat → (ℚ × Nat × Nat) × Option (Nat × Nat) → (ℚ × Nat × Nat) × Option (Nat × Nat)
  | [], st => st
  | i :: is, ((br, bsti, bstj), eq) =>
      let ai := a.getD i ""
      if ai = bj then
        fancyScanInner a bj j is ((br, bsti, bstj),
          match eq with | none => some (i, j) | some e => some e)
      else if realQuickRatioValue ai.data bj.data > br ∧
          quickRatioValue ai.data bj.data > br ∧
          ratioValue charJunk ai.data bj.data > br then
        fancyScanInner a bj j is ((ratioValue charJunk ai.data bj.data, i, j), eq)
      else
        fancyScanInner a bj j is ((br, bsti, bstj), eq)

/-- The outer `for j in range(blo, bhi)` loop of the best-ratio search. -/
def fancyScanOuter (a b : List String) (alo ahi : Nat) :
    List Nat → (ℚ × Nat × Nat) × Option (Nat × Nat) → (ℚ × Nat × Nat) × Option (Nat × Nat)
  | [], st => st
  | j :: js, st =>
      fancyScanOuter a b alo ahi js
        (fancyScanInner a (b.getD j "") j (List.range' alo (ahi - alo)) st)

/-- The intraline tag-building loop of `_fancy_replace` (the `'^'`/`'-'`/
`'+'`/`' '` runs fed to `_qformat`). -/
def buildTags : List (String × Nat × Nat × Nat × Nat) → List Char × List Char →
    List Char × List Char
  | [], t => t
  | (tag, ai1, ai2, bj1, bj2) :: rest, (ta, tb) =>
      let la := ai2 - ai1
      let lb := bj2 - bj1
      if tag = "replace" then buildTags rest (ta ++ List.replicate la '^', tb ++ List.replicate lb '^')
      else if tag = "delete" then buildTags rest (ta ++ List.replicate la '-', tb)
      else if tag = "insert" then buildTags rest (ta, tb ++ List.replicate lb '+')
      else if tag = "equal" then buildTags rest (ta ++ List.replicate la ' ', tb ++ List.replicate lb ' ')
      else buildTags rest (ta, tb)

/-- `difflib._keep_original_ws(s, tag_s)` (`Char.isWhitespace` stands in for
Python's `str.isspace`; the '?' hint lines it decorates are never selected
by the added-lines extraction). -/
def keepOriginalWs (s tags : List Char) : List Char :=
  (s.zip tags).map (fun ct => if ct.2 = ' ' && ct.1.isWhitespace then ct.1 else ct.2)

/-- Python `str.rstrip()` on a character list. -/
def rstripWs (l : List Char) : List Char :=
  (l.reverse.dropWhile (fun c => c.isWhitespace)).reverse

/-- `Differ._qformat(aline, bline, atags, btags)`: the `- / ? / + / ?` quad
for a non-identical synch pair. -/
def qformat (aline bline : String) (atags btags : List Char) : List (Char × String) :=
  let ta := rstripWs (keepOriginalWs aline.data atags)
  let tb := rstripWs (keepOriginalWs bline.data btags)
  [('-', aline)]
    ++ (if ta ≠ [] then [('?', String.mk ta ++ "\n")] else [])
    ++ [('+', bline)]
    ++ (if tb ≠ [] then [('?', String.mk tb ++ "\n")] else [])

/-- `Differ._fancy_replace` with `Differ._fancy_helper` inlined at its two
call sites (the Python pair recurse into each other; `_fancy_helper`
dispatches to `_fancy_replace` on a nonempty-by-nonempty region and to
`_dump` otherwise).
Fuel: every recursive call strictly shrinks `(ahi - alo) + (bhi - blo)`
(the synch point satisfies `alo ≤ best_i < ahi`, `blo ≤ best_j < bhi` —
either it was produced by the ratio loop over those ranges, or it is `eqi`,
also produced there), so the `(ahi - alo) + (bhi - blo) + 1` fuel supplied
by `differCompare` dominates the recursion depth.  `best_i`/`best_j` start
as `0` here; Python leaves them unbound, and both models only read them
after the loop has assigned them (`best_ratio ≥ cutoff` forces at least one
assignment). -/
def fancyReplaceF : Nat → List String → Nat → Nat → List String → Nat → Nat →
    List (Char × String)
  | 0, _, _, _, _, _, _ => []
  | fuel + 1, a, alo, ahi, b, blo, bhi =>
      let scanned := fancyScanOuter a b alo ahi (List.range' blo (bhi - blo))
        ((74 / 100, 0, 0), none)
      let cutoff : ℚ := 3 / 4
      let br := scanned.1.1
      if br < cutoff ∧ scanned.2 = none then
        plainReplace a alo ahi b blo bhi
      else
        let synch := if br < cutoff then scanned.2.getD (0, 0) else (scanned.1.2.1, scanned.1.2.2)
        let identical := br < cutoff
        let bi := synch.1
        let bj := synch.2
        let aelt := a.getD bi ""
        let belt := b.getD bj ""
        (if alo < bi then
            (if blo < bj then fancyReplaceF fuel a alo bi b blo bj
             else dumpTagged '-' a alo bi)
          else if blo < bj then dumpTagged '+' b blo bj else [])
          ++ (if identical then [(' ', aelt)]
              else
                let tags := buildTags (get_opcodes charJunk aelt.data belt.data) ([], [])
                qformat aelt belt tags.1 tags.2)
          ++ (if bi + 1 < ahi then
                (if bj + 1 < bhi then fancyReplaceF fuel a (bi + 1) ahi b (bj + 1) bhi
                 else dumpTagged '-' a (bi + 1) ahi)
              else if bj + 1 < bhi then dumpTagged '+' b (bj + 1) bhi else [])

/-- `Differ().compare(a, b)` (tag pairs instead of `'<tag> <line>'`
strings). -/
def differCompare (a b : List String) : List (Char × String) :=
  (get_opcodes lnJunk a b).flatMap (fun op =>
    if op.1 = "replace" then
      fancyReplaceF ((op.2.2.1 - op.2.1) + (op.2.2.2.2 - op.2.2.2.1) + 1)
        a op.2.1 op.2.2.1 b op.2.2.2.1 op.2.2.2.2
    else if op.1 = "delete" then dumpTagged '-' a op.2.1 op.2.2.1
    else if op.1 = "insert" then dumpTagged '+' b op.2.2.2.1 op.2.2.2.2
    else if op.1 = "equal" then dumpTagged ' ' a op.2.1 op.2.2.1
    else [])

/-- The added-lines computation of the `edit` branch of
`get_pr_added_lines_only`:
`diff = list(difflib.Differ().compare(lines_before, lines_after));`
`added_lines = [line[2:] for line in diff if line.startswith('+ ')]`. -/
def computeAddedLines (before after : List String) : List String :=
  ((differCompare before after).filter (fun t => t.1 = '+')).map (fun t => t.2)

/-! ## `AzureDevOpsClient.get_pr_added_lines_only` (src/azdo_client.py)

The loop over `diff_data.get('changes', [])`.  Each `change` is a JSON
object; the keys read by the code are modelled as fields (`item.get(...)`
returning a possibly-missing value becomes `Option`).  Python truthiness on
the fetched strings (`if object_id:`, `if content:`,
`if content_before and content_after:`) makes the empty string behave like
a missing value, which the model spells out as `≠ ""` tests. -/

structure DiffItem where
  isFolder : Bool
  path : Option String
  objectId : Option String
  originalObjectId : Option String

structure DiffChange where
  item : DiffItem
  changeType : Option String

structure PrFileInfo where
  path : Option String
  changeType : Option String
  added_lines : List String

structure PrAddedLinesResult where
  files : List PrFileInfo
  total : Nat
  source_branch : String
  target_branch : String

/-- The per-change computation of `file_info['added_lines']`:
the `add` branch fetches the blob at `objectId` and splits it; the `edit`
branch fetches both blobs and diffs them with `computeAddedLines`; every
other change type (including `delete`) leaves the initial `[]`. -/
def addedLinesForChange (fetch : String → Option String) (c : DiffChange) : List String :=
  if c.changeType = some "add" then
    match c.item.objectId with
    | some oid =>
        if oid ≠ "" then
          match fetch oid with
          | some content => if content ≠ "" then pySplitlines content else []
          | none => []
        else []
    | none => []
  else if c.changeType = some "edit" then
    match c.item.originalObjectId, c.item.objectId with
    | some ooid, some oid =>
        if ooid ≠ "" ∧ oid ≠ "" then
          match fetch ooid, fetch oid with
          | some cb, some ca =>
              if cb ≠ "" ∧ ca ≠ "" then
                computeAddedLines (pySplitlines cb) (pySplitlines ca)
              else []
          | _, _ => []
        else []
    | _, _ => []
  else []

/-- The accumulation of `files_with_additions`: folders are skipped
(`continue`), and a `file_info` is appended only when
`file_info['added_lines']` is truthy, i.e. nonempty. -/
def buildFilesWithAdditions (fetch : String → Option String) :
    List DiffChange → List PrFileInfo
  | [] => []
  | c :: rest =>
      if c.item.isFolder then buildFilesWithAdditions fetch rest
      else
        let lines := addedLinesForChange fetch c
        if lines.isEmpty then buildFilesWithAdditions fetch rest
        else { path := c.item.path, changeType := c.changeType, added_lines := lines } ::
          buildFilesWithAdditions fetch rest

/-- The `sourceRefName`/`targetRefName` fields read from the fetched PR
metadata (`pr_data.get(..., '').replace('refs/heads/', '')`). -/
structure PrData where
  sourceRefName : Option String
  targetRefName : Option String

/-- `AzureDevOpsClient.get_pr_added_lines_only`, with the three HTTP
collaborators abstracted: `prData` is the fetched PR metadata (`none` when
`get_pull_request` failed), `diffChanges` the `changes` list of the fetched
diff (`none` when `get_pr_diff` failed; a missing `changes` key defaults to
`[]`), and `fetch` is `get_file_content` keyed by the blob version
descriptor.  On either fetch failure the function returns `None`. -/
def get_pr_added_lines_only (prData : Option PrData)
    (diffChanges : Option (List DiffChange)) (fetch : String → Option String) :
    Option PrAddedLinesResult :=
  match prData with
  | none => none
  | some pr =>
      match diffChanges with
      | none => none
      | some changes =>
          let files := buildFilesWithAdditions fetch changes
          some { files := files
                 total := files.length
                 source_branch := (pr.sourceRefName.getD "").replace "refs/heads/" ""
                 target_branch := (pr.targetRefName.getD "").replace "refs/heads/" "" }

/-! ## `DataFormatter.format_file_contents` (src/data_formatter.py)

One record of `pr_files_content['files']`: `path` and `changeType` are
accessed with `[]` (required), the contents with `.get(..., '')`. -/

structure FileContentInfo where
  path : String
  changeType : String
  content_before : Option String
  content_after : Option String

structure FileContentStat where
  path : String
  change_type : String
  lines_before : Nat
  lines_after : Nat
  lines_changed : Int
  content_before : String
  content_after : String

/-- The loop body of `format_file_contents`.  `content.split('\n')` for a
nonempty `content` is `String.splitOn "\n"`; Python truthiness
(`if content_before else 0`) sends both an absent and an empty content to
`0`.  `lines_added`/`lines_removed` are Python ints (possibly negative),
hence `Int`. -/
def formatOneFileContent (fi : FileContentInfo) : FileContentStat :=
  let cb := fi.content_before.getD ""
  let ca := fi.content_after.getD ""
  let lines_before := if cb ≠ "" then (cb.splitOn "\n").length else 0
  let lines_after := if ca ≠ "" then (ca.splitOn "\n").length else 0
  let lines_added : Int := if fi.changeType ≠ "delete" then (lines_after : Int) - lines_before else 0
  let lines_removed : Int := if fi.changeType ≠ "add" then (lines_before : Int) - lines_after else 0
  { path := fi.path
    change_type := fi.changeType
    lines_before := lines_before
    lines_after := lines_after
    lines_changed := |lines_added - lines_removed|
    content_before := cb
    content_after := ca }

/-- `DataFormatter.format_file_contents`: `[]` when `pr_files_content` is
missing/falsy, otherwise the statistics of every record of its `files`
list. -/
def format_file_contents (pr_files_content : Option (List FileContentInfo)) :
    List FileContentStat :=
  match pr_files_content with
  | none => []
  | some fis => fis.map formatOneFileContent

/-! ## `DataFormatter._extract_text_from_adf` (src/data_formatter.py)

A JSON value as traversed by `extract_content`: a dict (only the `text` and
`content` keys are read; both optional), a list, or any other value
(ignored by the traversal; carried with its Python `str()` for the
top-level non-dict branch). -/

inductive AdfNode where
  | dict (text : Option String) (content : Option (List AdfNode))
  | arr (items : List AdfNode)
  | scalar (str : String)

mutual

/-- The depth-first `extract_content` traversal: a dict contributes its
`text` value (if the key is present) and then its `content` children in
order; a list contributes its items in order; any other value contributes
nothing.  `text_parts` is the concatenation. -/
def adfTextParts : AdfNode → List String
  | .dict t c =>
      (match t with | some s => [s] | none => []) ++
        (match c with | some cs => adfTextPartsList cs | none => [])
  | .arr items => adfTextPartsList items
  | .scalar _ => []

def adfTextPartsList : List AdfNode → List String
  | [] => []
  | x :: xs => adfTextParts x ++ adfTextPartsList xs

end

mutual

/-- Python `str()` of a non-dict JSON value, used only by the non-dict
fallback of `_extract_text_from_adf` (unreachable from `format_jira_issue`,
which guards with `isinstance(description, dict)`; the list rendering here
elides Python's element quoting, and no theorem below touches it). -/
def adfPyStr : AdfNode → String
  | .scalar s => s
  | .arr items => "[" ++ adfPyStrList items ++ "]"
  | .dict _ _ => "{...}"

def adfPyStrList : List AdfNode → String
  | [] => ""
  | [x] => adfPyStr x
  | x :: y :: xs => adfPyStr x ++ ", " ++ adfPyStrList (y :: xs)

end

/-- `DataFormatter._extract_text_from_adf(adf_doc)`:
`str(adf_doc)` for a non-dict, otherwise `'\n'.join(text_parts)` for the
collected parts. -/
def extract_text_from_adf (doc : AdfNode) : String :=
  match doc with
  | .dict t c => String.intercalate "\n" (adfTextParts (.dict t c))
  | other => adfPyStr other

/-! ## `AIAnalyzer._truncate_text` (src/ai_analyzer.py) -/

/-- `AIAnalyzer._truncate_text(text, max_chars=100000)`: the truncation
body is commented out in the source; the function returns `text`
unchanged. -/
def truncate_text (text : String) (maxChars : Nat) : String :=
  text

/-! ## Proof-support definitions

These are not part of the program; they are mathematical devices used to
state and prove the theorems below. -/

/-- The value the `find_longest_match` dynamic programming assigns to cell
`(i, j)` when both sequences are the same list `l` (with the line-level
junk function `lnJunk`): the length of the matching run ending at `a[i]`,
`b[j]` that the row loop stores in `newj2len[j]`, provided `j` is iterated
(i.e. `j ∈ b2j[a[i]]`), and `0` otherwise. -/
def Jrun (l : List String) : Nat → Nat → Nat
  | 0, j => if j ∈ b2jMap lnJunk l (l.getD 0 default) then 1 else 0
  | i + 1, 0 => if 0 ∈ b2jMap lnJunk l (l.getD (i + 1) default) then 1 else 0
  | i + 1, j + 1 =>
      if (j + 1) ∈ b2jMap lnJunk l (l.getD (i + 1) default) then Jrun l i j + 1 else 0

/-- `AdfReaches doc sub`: `sub` is one of the nodes visited by the
recursive `extract_content` traversal started at `doc` (the node itself,
a member of a visited dict's `content` list, or a member of a visited
list). -/
inductive AdfReaches : AdfNode → AdfNode → Prop where
  | refl (x : AdfNode) : AdfReaches x x
  | viaContent {t : Option String} {cs : List AdfNode} {c sub : AdfNode}
      (hc : c ∈ cs) (h : AdfReaches c sub) : AdfReaches (.dict t (some cs)) sub
  | viaArr {xs : List AdfNode} {c sub : AdfNode}
      (hc : c ∈ xs) (h : AdfReaches c sub) : AdfReaches (.arr xs) sub

/-! # Theorems

Shared helper lemmas first, then one theorem per claim (witnesses and
counterexamples where applicable). -/

/-- Every file record accumulated by the `files_with_additions` loop passed
the `if file_info['added_lines']:` guard, so its added-lines list is
nonempty. -/
theorem mem_buildFilesWithAdditions (fetch : String → Option String) :
    ∀ (cs : List DiffChange) (fi : PrFileInfo),
      fi ∈ buildFilesWithAdditions fetch cs → fi.added_lines ≠ [] := by
  intro cs
  induction cs with
  | nil => intro fi h; simp [buildFilesWithAdditions] at h
  | cons c rest ih =>
      intro fi h
      by_cases hf : c.item.isFolder
      · rw [buildFilesWithAdditions, if_pos hf] at h
        exact ih fi h
      · rw [buildFilesWithAdditions, if_neg hf] at h
        by_cases he : (addedLinesForChange fetch c).isEmpty
        · rw [if_pos he] at h
          exact ih fi h
        · rw [if_neg he] at h
          rcases List.mem_cons.mp h with hfi | hfi
          · subst hfi
            simpa [List.isEmpty_iff] using he
          · exact ih fi hfi

/-- **C1.** Every `PullRequestChangeSet` returned by the assembler
(`get_pr_added_lines_only`, on any fetched PR metadata, changeset and
content lookup) satisfies `total = files.length`, and every file record in
`files` has a nonempty `added_lines` list (a file whose classified
added-lines list is empty is excluded by the
`if file_info['added_lines']:` guard). -/
theorem get_pr_added_lines_only_invariant (prData : Option PrData)
    (diffChanges : Option (List DiffChange)) (fetch : String → Option String)
    (res : PrAddedLinesResult)
    (h : get_pr_added_lines_only prData diffChanges fetch = some res) :
    res.total = res.files.length ∧ ∀ fi ∈ res.files, fi.added_lines ≠ [] := by
  match prData, diffChanges with
  | none, _ => simp [get_pr_added_lines_only] at h
  | some pr, none => simp [get_pr_added_lines_only] at h
  | some pr, some changes =>
      rw [get_pr_added_lines_only] at h
      injection h with h
      subst h
      exact ⟨rfl, fun fi hfi => mem_buildFilesWithAdditions fetch changes fi hfi⟩

/-- Witness for C1 at a concrete input: one `add` file whose blob fetch
succeeds and one folder entry. -/
theorem get_pr_added_lines_only_invariant_witness :
    (({ files := [{ path := some "/a.txt", changeType := some "add",
                    added_lines := ["p", "q"] }],
        total := 1,
        source_branch := ("".replace "refs/heads/" "")
        target_branch := ("".replace "refs/heads/" "") } : PrAddedLinesResult).total =
      ({ files := [{ path := some "/a.txt", changeType := some "add",
                     added_lines := ["p", "q"] }],
         total := 1,
         source_branch := ("".replace "refs/heads/" "")
         target_branch := ("".replace "refs/heads/" "") } : PrAddedLinesResult).files.length) ∧
    ∀ fi ∈ ({ files := [{ path := some "/a.txt", changeType := some "add",
                          added_lines := ["p", "q"] }],
              total := 1,
              source_branch := ("".replace "refs/heads/" "")
              target_branch := ("".replace "refs/heads/" "") } : PrAddedLinesResult).files,
      fi.added_lines ≠ [] :=
  get_pr_added_lines_only_invariant (some ⟨none, none⟩)
    (some [⟨⟨false, some "/a.txt", some "oidA", none⟩, some "add"⟩,
           ⟨⟨true, some "/dir", none, none⟩, some "add"⟩])
    (fun oid => if oid = "oidA" then some "p\nq" else none) _ rfl

/-- **C2.** `computeAddedLines(["a","b"], ["b","a"])` returns exactly one
line — `["a"]` or `["b"]` depending on the LCS tie-break (the matcher
aligns the `"a"`s, because the first longest match found starts earliest in
`a`, so the inserted line is `["b"]`) — and in particular returns neither
`[]` nor both lines. -/
theorem computeAddedLines_reordered_pair :
    (computeAddedLines ["a", "b"] ["b", "a"] = ["a"] ∨
      computeAddedLines ["a", "b"] ["b", "a"] = ["b"]) ∧
    computeAddedLines ["a", "b"] ["b", "a"] ≠ [] ∧
    computeAddedLines ["a", "b"] ["b", "a"] ≠ ["a", "b"] ∧
    computeAddedLines ["a", "b"] ["b", "a"] ≠ ["b", "a"] := by
  refine ⟨Or.inr rfl, ?_, ?_, ?_⟩ <;> decide

/-- A `delete` change never reaches the `add` or `edit` branch of the
classifier, so its added-lines list is the initial `[]`, whatever the
content lookup returns for its object ids. -/
theorem addedLinesForChange_delete (fetch : String → Option String)
    (c : DiffChange) (h : c.changeType = some "delete") :
    addedLinesForChange fetch c = [] := by
  simp [addedLinesForChange, h]

/-- No record of the `files_with_additions` list carries the `delete`
change type: a `delete` change's added-lines list is empty, so the
`if file_info['added_lines']:` guard filters it out on every iteration. -/
theorem buildFilesWithAdditions_no_delete (fetch : String → Option String) :
    ∀ (cs : List DiffChange) (fi : PrFileInfo),
      fi ∈ buildFilesWithAdditions fetch cs → fi.changeType ≠ some "delete" := by
  intro cs
  induction cs with
  | nil => intro fi h; simp [buildFilesWithAdditions] at h
  | cons c rest ih =>
      intro fi h
      by_cases hf : c.item.isFolder
      · rw [buildFilesWithAdditions, if_pos hf] at h
        exact ih fi h
      · rw [buildFilesWithAdditions, if_neg hf] at h
        by_cases he : (addedLinesForChange fetch c).isEmpty
        · rw [if_pos he] at h
          exact ih fi h
        · rw [if_neg he] at h
          rcases List.mem_cons.mp h with hfi | hfi
          · subst hfi
            intro hdel
            rw [addedLinesForChange_delete fetch c hdel] at he
            exact he rfl
          · exact ih fi hfi

/-- **C5.** A `delete` change always contributes an empty added-lines list
(the classifier has no `delete` branch), for every content lookup: whatever
content is fetchable for its object ids; consequently no record of the
assembled `files` ever carries the `delete` change type, for every content
lookup and every changeset.  Concretely, assembling one `add` file with
content `"l1\nl2"` together with one `delete` file yields exactly one file
record (the `add` file with `added_lines = ["l1","l2"]`) and `total = 1`. -/
theorem assemble_add_and_delete :
    (∀ (fetch : String → Option String) (c : DiffChange),
        c.changeType = some "delete" → addedLinesForChange fetch c = []) ∧
    (∀ (fetch : String → Option String) (cs : List DiffChange)
        (fi : PrFileInfo), fi ∈ buildFilesWithAdditions fetch cs →
        fi.changeType ≠ some "delete") ∧
    (get_pr_added_lines_only (some ⟨some "refs/heads/feat", some "refs/heads/main"⟩)
      (some [⟨⟨false, some "/added.txt", some "oidA", none⟩, some "add"⟩,
             ⟨⟨false, some "/deleted.txt", some "oidD", some "oidDOrig"⟩, some "delete"⟩])
      (fun oid => if oid = "oidD" then some "zz" else
        if oid = "oidDOrig" then some "ww" else
        if oid = "oidA" then some "l1\nl2" else none)).map
        (fun r => (r.files, r.total)) =
      some ([{ path := some "/added.txt", changeType := some "add",
               added_lines := ["l1", "l2"] }], 1) :=
  ⟨addedLinesForChange_delete, buildFilesWithAdditions_no_delete, rfl⟩

/-- Witness for C5: the delete clause at a concrete change whose object
ids both fetch content, and the no-delete-record clause at a concrete
assembled file list. -/
theorem assemble_add_and_delete_witness :
    (⟨⟨false, some "/deleted.txt", some "oidD", some "oidDOrig"⟩,
      some "delete"⟩ : DiffChange).changeType = some "delete" ∧
    addedLinesForChange (fun _ => some "zz")
      ⟨⟨false, some "/deleted.txt", some "oidD", some "oidDOrig"⟩,
       some "delete"⟩ = [] ∧
    ({ path := some "/added.txt", changeType := some "add",
       added_lines := ["l1", "l2"] } : PrFileInfo).changeType ≠ some "delete" :=
  ⟨rfl,
   assemble_add_and_delete.1 (fun _ => some "zz")
     ⟨⟨false, some "/deleted.txt", some "oidD", some "oidDOrig"⟩, some "delete"⟩ rfl,
   assemble_add_and_delete.2.1
     (fun oid => if oid = "oidA" then some "l1\nl2" else none)
     [⟨⟨false, some "/added.txt", some "oidA", none⟩, some "add"⟩]
     { path := some "/added.txt", changeType := some "add",
       added_lines := ["l1", "l2"] }
     (List.mem_singleton_self _)⟩

/-- **C9.** `_truncate_text` is the identity: it returns `text` unchanged
for every maximum character count (the truncation body is commented out in
the source), so the output does not depend on `max_chars`. -/
theorem truncate_text_identity (text : String) (m₁ m₂ : Nat) :
    truncate_text text m₁ = text ∧ truncate_text text m₁ = truncate_text text m₂ :=
  ⟨rfl, rfl⟩

/-- **C8.** Flattening the structured document
`{content:[{text:"A"},{content:[{text:"B"}]}]}` collects the text values in
depth-first document order and joins them with newlines, yielding
`"A\nB"`. -/
theorem extract_text_from_adf_example :
    extract_text_from_adf
      (.dict none (some [.dict (some "A") none,
                         .dict none (some [.dict (some "B") none])])) = "A\nB" := rfl

/-- A text value collected from a node also occurs in the collected parts
of any list containing that node. -/
theorem mem_adfTextPartsList {s : String} {c : AdfNode} :
    ∀ {cs : List AdfNode}, c ∈ cs → s ∈ adfTextParts c → s ∈ adfTextPartsList cs := by
  intro cs
  induction cs with
  | nil => intro h; simp at h
  | cons x xs ih =>
      intro hc hs
      rcases List.mem_cons.mp hc with h | h
      · subst h
        exact List.mem_append.mpr (Or.inl hs)
      · exact List.mem_append.mpr (Or.inr (ih h hs))

/-- **C10.** The structured-document flattener collects the `text` value of
every dict node it visits that has a `text` key — including internal nodes
that also have `content` children, whose own text is emitted before their
children's — not only leaf nodes; every such text value appears among the
joined parts. -/
theorem adf_collects_internal_text :
    (∀ (doc : AdfNode) (t : String) (c : Option (List AdfNode)),
        AdfReaches doc (.dict (some t) c) → t ∈ adfTextParts doc) ∧
    (∀ (t : String) (cs : List AdfNode),
        adfTextParts (.dict (some t) (some cs)) = t :: adfTextPartsList cs) := by
  constructor
  · have aux : ∀ (doc sub : AdfNode), AdfReaches doc sub →
        ∀ (t : String) (c : Option (List AdfNode)),
          sub = .dict (some t) c → t ∈ adfTextParts doc := by
      intro doc sub h
      induction h with
      | refl x =>
          intro t c hx
          subst hx
          cases c <;> simp [adfTextParts]
      | viaContent hc _ ih =>
          intro t c hx
          exact List.mem_append.mpr (Or.inr (mem_adfTextPartsList hc (ih t c hx)))
      | viaArr hc _ ih =>
          intro t c hx
          exact mem_adfTextPartsList hc (ih t c hx)
    exact fun doc t c h => aux doc _ h t c rfl
  · intro t cs
    simp [adfTextParts]

/-- Witness for C10: an internal node carrying both a `text` value and
children contributes its own text (first) to the collected parts. -/
theorem adf_collects_internal_text_witness :
    "A" ∈ adfTextParts (.dict none (some [.dict (some "A") (some [.dict (some "B") none])])) :=
  adf_collects_internal_text.1 _ "A" (some [.dict (some "B") none])
    (.viaContent (List.mem_singleton_self _) (.refl _))

/-- **C4.** Every per-file statistics record produced by
`format_file_contents` satisfies: `lines_before`/`lines_after` are the
newline-segment counts of the respective content (`s.split('\n')` has
`count('\n') + 1` entries for a nonempty `s`; an absent content is loaded
as `''` by `.get(..., '')`, and the code's truthiness test sends the empty
content to `0` segments); for change type `add` the removed count is forced
to `0`; for `delete` the added count is forced to `0`; otherwise the added
and removed counts are the signed differences of the two line counts; and
`lines_changed = abs(lines_added - lines_removed)` in exact integer
arithmetic. -/
theorem format_file_contents_stats (pfc : Option (List FileContentInfo))
    (st : FileContentStat) (hst : st ∈ format_file_contents pfc) :
    st.lines_before =
      (if st.content_before = "" then 0 else (st.content_before.splitOn "\n").length) ∧
    st.lines_after =
      (if st.content_after = "" then 0 else (st.content_after.splitOn "\n").length) ∧
    st.lines_changed =
      |(if st.change_type = "delete" then 0 else (st.lines_after : Int) - st.lines_before) -
        (if st.change_type = "add" then 0 else (st.lines_before : Int) - st.lines_after)| := by
  match pfc with
  | none => simp [format_file_contents] at hst
  | some fis =>
      rw [format_file_contents] at hst
      rcases List.mem_map.mp hst with ⟨fi, _, hfi⟩
      subst hfi
      refine ⟨?_, ?_, ?_⟩
      · by_cases h : fi.content_before.getD "" = "" <;>
          simp [formatOneFileContent, h]
      · by_cases h : fi.content_after.getD "" = "" <;>
          simp [formatOneFileContent, h]
      · by_cases hd : fi.changeType = "delete" <;>
          by_cases ha : fi.changeType = "add" <;>
          simp [formatOneFileContent, hd, ha]

/-- Witness for C4 at a concrete record (`edit`, two lines before, one
line after). -/
theorem format_file_contents_stats_witness :
    ((formatOneFileContent ⟨"/f.txt", "edit", some "a\nb", some "c"⟩).lines_before =
      (if (formatOneFileContent ⟨"/f.txt", "edit", some "a\nb", some "c"⟩).content_before = ""
       then 0
       else ((formatOneFileContent
          ⟨"/f.txt", "edit", some "a\nb", some "c"⟩).content_before.splitOn "\n").length)) ∧
    ((formatOneFileContent ⟨"/f.txt", "edit", some "a\nb", some "c"⟩).lines_after =
      (if (formatOneFileContent ⟨"/f.txt", "edit", some "a\nb", some "c"⟩).content_after = ""
       then 0
       else ((formatOneFileContent
          ⟨"/f.txt", "edit", some "a\nb", some "c"⟩).content_after.splitOn "\n").length)) ∧
    (formatOneFileContent ⟨"/f.txt", "edit", some "a\nb", some "c"⟩).lines_changed =
      |(if (formatOneFileContent ⟨"/f.txt", "edit", some "a\nb", some "c"⟩).change_type = "delete"
         then 0
         else ((formatOneFileContent ⟨"/f.txt", "edit", some "a\nb", some "c"⟩).lines_after : Int) -
           (formatOneFileContent ⟨"/f.txt", "edit", some "a\nb", some "c"⟩).lines_before) -
        (if (formatOneFileContent ⟨"/f.txt", "edit", some "a\nb", some "c"⟩).change_type = "add"
         then 0
         else ((formatOneFileContent ⟨"/f.txt", "edit", some "a\nb", some "c"⟩).lines_before : Int) -
           (formatOneFileContent ⟨"/f.txt", "edit", some "a\nb", some "c"⟩).lines_after)| :=
  format_file_contents_stats (some [⟨"/f.txt", "edit", some "a\nb", some "c"⟩]) _
    (List.mem_singleton_self _)

/-- **C3, counterexample.** For an `edit` change whose `contentBefore`
fetch yields the (present) empty string and whose `contentAfter` is the
nonempty `"x\ny"`, the code returns `[]` — not the after-lines
`["x","y"]` that the claim asserts: the truthiness test
`if content_before and content_after:` treats the empty string like a
missing content, so the differ is never invoked. -/
theorem edit_empty_before_counterexample :
    addedLinesForChange
      (fun oid => if oid = "before" then some "" else
        if oid = "after" then some "x\ny" else none)
      ⟨⟨false, some "/f.txt", some "after", some "before"⟩, some "edit"⟩ = [] ∧
    pySplitlines "x\ny" = ["x", "y"] ∧
    ([] : List String) ≠ ["x", "y"] := by
  refine ⟨rfl, rfl, ?_⟩
  decide

/-- **C3, amended.** For a change of type `edit` where the fetched
`contentBefore` is present but equal to the empty string, the classifier
treats it like a missing content (the truthiness test
`if content_before and content_after:` fails) and returns the empty
added-lines list — the file is skipped from the results instead of having
all of `contentAfter`'s lines reported as added. -/
theorem edit_empty_before_returns_empty (fetch : String → Option String)
    (c : DiffChange) (ooid : String)
    (hct : c.changeType = some "edit")
    (hoo : c.item.originalObjectId = some ooid)
    (hcb : fetch ooid = some "") :
    addedLinesForChange fetch c = [] := by
  obtain ⟨⟨fold, p, oidOpt, ooidOpt⟩, ct⟩ := c
  simp only at hct hoo
  subst hct
  subst hoo
  cases oidOpt with
  | none => rfl
  | some oid =>
      by_cases hne : ooid ≠ "" ∧ oid ≠ ""
      · cases hfo : fetch oid with
        | none => simp [addedLinesForChange, hcb, hfo, hne.1, hne.2]
        | some ca => simp [addedLinesForChange, hcb, hfo, hne.1, hne.2]
      · simp [addedLinesForChange, hne]

/-- Witness for the amended C3 at a concrete input. -/
theorem edit_empty_before_returns_empty_witness :
    addedLinesForChange
      (fun oid => if oid = "b" then some "" else if oid = "a" then some "x\ny" else none)
      ⟨⟨false, some "/g.txt", some "a", some "b"⟩, some "edit"⟩ = [] :=
  edit_empty_before_returns_empty _ _ "b" rfl rfl rfl

/-- Projecting the `'+'`-tagged pairs back out of an all-`'+'` dump
recovers the dumped lines. -/
theorem dump_plus_roundtrip (b : List String) :
    ((b.map (fun s => ((('+' : Char), s) : Char × String))).filter
      (fun t => t.1 = '+')).map (fun t => t.2) = b := by
  induction b with
  | nil => rfl
  | cons y ys ih => simp [ih]

/-- **C6.** For every sequence `after`, `computeAddedLines []` `after`
returns exactly `after` (same lines, same order, same multiplicity): with
an empty `before` the matcher finds no matching block, the single opcode is
an insertion of all of `after`, and the differ dumps every line with the
`'+'` tag. -/
theorem computeAddedLines_empty_before (after : List String) :
    computeAddedLines [] after = after := by
  cases after with
  | nil => rfl
  | cons x xs =>
      have hblocks : get_matching_blocks lnJunk ([] : List String) (x :: xs) =
          [(0, (x :: xs).length, 0)] := rfl
      have h0 : get_opcodes lnJunk ([] : List String) (x :: xs) =
          [("insert", 0, 0, 0, (x :: xs).length)] := by
        rw [get_opcodes, hblocks]
        simp [opcodesGo]
      simp only [computeAddedLines, differCompare, h0]
      simp only [List.flatMap_cons, List.flatMap_nil, List.append_nil]
      norm_num only
      simp only [dumpTagged, List.take_length, List.drop_zero]
      exact dump_plus_roundtrip (x :: xs)

/-- Characterisation of `elemPositions`. -/
theorem mem_elemPositions {α : Type} [DecidableEq α] {b : List α} {x : α} {j : Nat} :
    j ∈ elemPositions b x ↔ j < b.length ∧ b.get? j = some x := by
  simp [elemPositions, List.mem_filter, List.mem_range]

theorem elemPositions_pairwise {α : Type} [DecidableEq α] (b : List α) (x : α) :
    (elemPositions b x).Pairwise (· < ·) :=
  (List.pairwise_lt_range b.length).filter _

theorem mem_of_mem_b2jMap {α : Type} [DecidableEq α] {junk : α → Bool} {b : List α}
    {x : α} {j : Nat} (h : j ∈ b2jMap junk b x) : j ∈ elemPositions b x := by
  rw [b2jMap] at h
  split at h
  · simp at h
  · split at h
    · simp at h
    · exact h

theorem b2jMap_eq_of_mem {α : Type} [DecidableEq α] {junk : α → Bool} {b : List α}
    {x : α} {j : Nat} (h : j ∈ b2jMap junk b x) : b2jMap junk b x = elemPositions b x := by
  have h1 : ¬((junk x && decide (x ∈ b)) = true) := by
    intro hj
    rw [b2jMap, if_pos hj] at h
    simp at h
  have h2 : ¬(200 ≤ b.length ∧ b.length / 100 + 1 < (elemPositions b x).length) := by
    intro hp
    rw [b2jMap, if_neg h1, if_pos hp] at h
    simp at h
  rw [b2jMap, if_neg h1, if_neg h2]

theorem b2jMap_pairwise {α : Type} [DecidableEq α] (junk : α → Bool) (b : List α) (x : α) :
    (b2jMap junk b x).Pairwise (· < ·) := by
  rw [b2jMap]
  split
  · exact List.Pairwise.nil
  · split
    · exact List.Pairwise.nil
    · exact elemPositions_pairwise b x

theorem getD_eq_of_mem_b2jMap {l : List String} {x : String} {j : Nat}
    (h : j ∈ b2jMap lnJunk l x) : l.getD j default = x ∧ j < l.length := by
  have h' := mem_elemPositions.mp (mem_of_mem_b2jMap h)
  refine ⟨?_, h'.1⟩
  rw [List.getD_eq_get?, h'.2]
  rfl

theorem mem_b2jMap_self {l : List String} {x : String} {j i : Nat}
    (h : j ∈ b2jMap lnJunk l x) (hi : i < l.length) (hx : l.getD i default = x) :
    i ∈ b2jMap lnJunk l x := by
  rw [b2jMap_eq_of_mem h]
  refine mem_elemPositions.mpr ⟨hi, ?_⟩
  cases hv : l.get? i with
  | none =>
      have := List.get?_eq_none.mp hv
      omega
  | some v =>
      have : l.getD i default = v := by rw [List.getD_eq_get?, hv]; rfl
      rw [hx] at this
      rw [this]

theorem Jrun_zero (l : List String) (j : Nat) :
    Jrun l 0 j = if j ∈ b2jMap lnJunk l (l.getD 0 default) then 1 else 0 := rfl

theorem Jrun_succ_zero (l : List String) (i : Nat) :
    Jrun l (i + 1) 0 = if 0 ∈ b2jMap lnJunk l (l.getD (i + 1) default) then 1 else 0 := rfl

theorem Jrun_succ_succ (l : List String) (i j : Nat) :
    Jrun l (i + 1) (j + 1) =
      if (j + 1) ∈ b2jMap lnJunk l (l.getD (i + 1) default) then Jrun l i j + 1 else 0 := rfl

theorem Jrun_eq_zero_of_not_mem {l : List String} {i j : Nat}
    (h : j ∉ b2jMap lnJunk l (l.getD i default)) : Jrun l i j = 0 := by
  match i, j with
  | 0, j => rw [Jrun_zero, if_neg h]
  | i + 1, 0 => rw [Jrun_succ_zero, if_neg h]
  | i + 1, j + 1 => rw [Jrun_succ_succ, if_neg h]

theorem Jrun_le_succ (l : List String) : ∀ i j, Jrun l i j ≤ i + 1 := by
  intro i
  induction i with
  | zero =>
      intro j
      rw [Jrun_zero]
      split <;> omega
  | succ i ih =>
      intro j
      match j with
      | 0 => rw [Jrun_succ_zero]; split <;> omega
      | j + 1 =>
          rw [Jrun_succ_succ]
          split
          · have := ih j; omega
          · omega

theorem Jrun_le_diag_left (l : List String) : ∀ j i, j ≤ i → Jrun l i j ≤ Jrun l j j := by
  intro j
  induction j with
  | zero =>
      intro i _
      match i with
      | 0 => exact le_refl _
      | i + 1 =>
          rw [Jrun_succ_zero]
          split
          · rename_i hmem
            have hgd := (getD_eq_of_mem_b2jMap hmem).1
            rw [Jrun_zero, if_pos (hgd ▸ hmem)]
          · exact Nat.zero_le _
  | succ j ih =>
      intro i hji
      match i, hji with
      | i + 1, hji =>
          rw [Jrun_succ_succ]
          split
          · rename_i hmem
            have hgd := (getD_eq_of_mem_b2jMap hmem).1
            have hmem' : (j + 1) ∈ b2jMap lnJunk l (l.getD (j + 1) default) := hgd ▸ hmem
            rw [Jrun_succ_succ l j j, if_pos hmem']
            have := ih i (by omega)
            omega
          · exact Nat.zero_le _

theorem Jrun_le_diag_right (l : List String) : ∀ i j, i ≤ j → Jrun l i j ≤ Jrun l i i := by
  intro i
  induction i with
  | zero =>
      intro j _
      rw [Jrun_zero]
      split
      · rename_i hmem
        have hlt := (getD_eq_of_mem_b2jMap hmem).2
        have h0 : 0 ∈ b2jMap lnJunk l (l.getD 0 default) :=
          mem_b2jMap_self hmem (by omega) rfl
        rw [Jrun_zero, if_pos h0]
      · exact Nat.zero_le _
  | succ i ih =>
      intro j hij
      match j, hij with
      | j + 1, hij =>
          rw [Jrun_succ_succ]
          split
          · rename_i hmem
            have hlt := (getD_eq_of_mem_b2jMap hmem).2
            have hself : (i + 1) ∈ b2jMap lnJunk l (l.getD (i + 1) default) :=
              mem_b2jMap_self hmem (by omega) rfl
            rw [Jrun_succ_succ l i i, if_pos hself]
            have := ih j (by omega)
            omega
          · exact Nat.zero_le _

/-- The central invariant of the `find_longest_match` dynamic programming
when both sequences are the same list `l`: processing (a suffix of) one
row's occurrence list keeps the running best block on the diagonal.  The
shadow argument: a run ending at an off-diagonal cell `(i, j)` has the same
length as a run ending at the diagonal cell `(min i j, min i j)`, which has
already been processed (earlier row, or earlier column of the same row,
since the occurrence lists are increasing), so the strict `k > bestsize`
update cannot fire off the diagonal. -/
theorem flmInner_diag (l : List String) {i : Nat} (hi : i < l.length)
    (j2lenOld : Nat → Nat)
    (hk : ∀ jx ∈ b2jMap lnJunk l (l.getD i default),
      (if jx = 0 then 0 else j2lenOld (jx - 1)) + 1 = Jrun l i jx) :
    ∀ (js : List Nat), js <:+ b2jMap lnJunk l (l.getD i default) →
    ∀ (nj : Nat → Nat) (d s : Nat),
      d + s ≤ l.length →
      (∀ m, m < i → Jrun l m m ≤ s) →
      (∀ jx, jx ∈ b2jMap lnJunk l (l.getD i default) → jx ∉ js → Jrun l i jx ≤ s) →
      (∀ jx, nj jx =
        if jx ∈ b2jMap lnJunk l (l.getD i default) ∧ jx ∉ js then Jrun l i jx else 0) →
      ∃ d' s',
        (flmInner j2lenOld 0 l.length i js nj (d, d, s)).2 = (d', d', s') ∧
        d' + s' ≤ l.length ∧
        (∀ m, m < i → Jrun l m m ≤ s') ∧
        (∀ jx, jx ∈ b2jMap lnJunk l (l.getD i default) → Jrun l i jx ≤ s') ∧
        (∀ jx, (flmInner j2lenOld 0 l.length i js nj (d, d, s)).1 jx =
          if jx ∈ b2jMap lnJunk l (l.getD i default) then Jrun l i jx else 0) := by
  intro js
  induction js with
  | nil =>
      intro _ nj d s hds hrows hcols hnj
      rw [show flmInner j2lenOld 0 l.length i [] nj (d, d, s) = (nj, (d, d, s)) from rfl]
      refine ⟨d, s, rfl, hds, hrows, ?_, ?_⟩
      · intro jx hjx
        exact hcols jx hjx (List.not_mem_nil jx)
      · intro jx
        show nj jx = _
        rw [hnj jx]
        by_cases hmem : jx ∈ b2jMap lnJunk l (l.getD i default) <;> simp [hmem]
  | cons j js' ih =>
      intro hjs nj d s hds hrows hcols hnj
      have hjmem : j ∈ b2jMap lnJunk l (l.getD i default) :=
        hjs.subset (List.mem_cons_self j js')
      have hjn : j < l.length := (getD_eq_of_mem_b2jMap hjmem).2
      have hpw : (j :: js').Pairwise (· < ·) :=
        (b2jMap_pairwise lnJunk l _).sublist hjs.sublist
      have hjlt : ∀ x ∈ js', j < x := (List.pairwise_cons.mp hpw).1
      have hjnotin : j ∉ js' := fun hx => absurd (hjlt j hx) (lt_irrefl j)
      have hjs' : js' <:+ b2jMap lnJunk l (l.getD i default) := by
        obtain ⟨p, hp⟩ := hjs
        exact ⟨p ++ [j], by rw [List.append_assoc]; exact hp⟩
      have hkj : (if j = 0 then 0 else j2lenOld (j - 1)) + 1 = Jrun l i j := hk j hjmem
      have hstep : flmInner j2lenOld 0 l.length i (j :: js') nj (d, d, s) =
          flmInner j2lenOld 0 l.length i js'
            (fun jy => if jy = j then (if j = 0 then 0 else j2lenOld (j - 1)) + 1 else nj jy)
            (if s < (if j = 0 then 0 else j2lenOld (j - 1)) + 1 then
              (i + 1 - ((if j = 0 then 0 else j2lenOld (j - 1)) + 1),
               j + 1 - ((if j = 0 then 0 else j2lenOld (j - 1)) + 1),
               (if j = 0 then 0 else j2lenOld (j - 1)) + 1)
             else (d, d, s)) := by
        rw [flmInner, if_neg (Nat.not_lt_zero j), if_neg (not_le.mpr hjn)]
      have hnj' : ∀ jy, (fun jz => if jz = j then (if j = 0 then 0 else j2lenOld (j - 1)) + 1
            else nj jz) jy =
          if jy ∈ b2jMap lnJunk l (l.getD i default) ∧ jy ∉ js' then Jrun l i jy else 0 := by
        intro jy
        by_cases hjj : jy = j
        · subst hjj
          show (if jy = jy then (if jy = 0 then 0 else j2lenOld (jy - 1)) + 1 else nj jy) =
            if jy ∈ b2jMap lnJunk l (l.getD i default) ∧ jy ∉ js' then Jrun l i jy else 0
          rw [if_pos (Eq.refl jy), if_pos (And.intro hjmem hjnotin)]
          exact hkj
        · simp only []
          rw [if_neg hjj, hnj jy]
          simp [List.mem_cons, hjj]
      rw [hstep]
      by_cases hup : s < (if j = 0 then 0 else j2lenOld (j - 1)) + 1
      · -- update fired: the diagonal shadow forces j = i
        have hji : j = i := by
          by_contra hne
          rcases Nat.lt_or_ge j i with hlt | hge
          · have h1 : Jrun l i j ≤ Jrun l j j := Jrun_le_diag_left l j i (le_of_lt hlt)
            have h2 : Jrun l j j ≤ s := hrows j hlt
            omega
          · have hgt : i < j := lt_of_le_of_ne hge (Ne.symm hne)
            have h1 : Jrun l i j ≤ Jrun l i i := Jrun_le_diag_right l i j (le_of_lt hgt)
            have himem : i ∈ b2jMap lnJunk l (l.getD i default) :=
              mem_b2jMap_self hjmem hi rfl
            have hinotin : i ∉ j :: js' := by
              intro hx
              rcases List.mem_cons.mp hx with h | h
              · omega
              · exact absurd (hjlt i h) (by omega)
            have h2 : Jrun l i i ≤ s := hcols i himem hinotin
            omega
        subst hji
        have hk1 : (if j = 0 then 0 else j2lenOld (j - 1)) + 1 ≤ j + 1 := by
          rw [hkj]
          exact Jrun_le_succ l j j
        rw [if_pos hup]
        refine ih hjs' _ (j + 1 - ((if j = 0 then 0 else j2lenOld (j - 1)) + 1))
          ((if j = 0 then 0 else j2lenOld (j - 1)) + 1) (by omega) ?_ ?_ hnj'
        · intro m hm
          have := hrows m hm
          omega
        · intro jx hjx hjxnotin
          by_cases hjj : jx = j
          · subst hjj
            omega
          · have hninc : jx ∉ j :: js' := by
              intro hx
              rcases List.mem_cons.mp hx with h | h
              · exact hjj h
              · exact hjxnotin h
            have := hcols jx hjx hninc
            omega
      · rw [if_neg hup]
        refine ih hjs' _ d s hds hrows ?_ hnj'
        · intro jx hjx hjxnotin
          by_cases hjj : jx = j
          · subst hjj
            omega
          · have hninc : jx ∉ j :: js' := fun hx =>
              (List.mem_cons.mp hx).elim hjj hjxnotin
            exact hcols jx hjx hninc

theorem flmRowStep_diag (l : List String) {i : Nat} (hi : i < l.length)
    (st : (Nat → Nat) × (Nat × Nat × Nat)) (d s : Nat)
    (hbest : st.2 = (d, d, s)) (hds : d + s ≤ l.length)
    (hrows : ∀ m, m < i → Jrun l m m ≤ s)
    (hold : ∀ jx ∈ b2jMap lnJunk l (l.getD i default),
      (if jx = 0 then 0 else st.1 (jx - 1)) + 1 = Jrun l i jx) :
    ∃ d' s', (flmRowStep lnJunk l l 0 l.length st i).2 = (d', d', s') ∧
      d' + s' ≤ l.length ∧
      (∀ m, m < i + 1 → Jrun l m m ≤ s') ∧
      (∀ jx ∈ b2jMap lnJunk l (l.getD (i + 1) default),
        (if jx = 0 then 0 else (flmRowStep lnJunk l l 0 l.length st i).1 (jx - 1)) + 1 =
          Jrun l (i + 1) jx) := by
  obtain ⟨d', s', h1, h2, h3, h4, h5⟩ := flmInner_diag l hi st.1 hold
    (b2jMap lnJunk l (l.getD i default)) (List.suffix_refl _)
    (fun _ => 0) d s hds hrows
    (fun jx hjx hnot => absurd hjx hnot)
    (fun jx => by
      rw [if_neg]
      rintro ⟨ha, hb⟩
      exact hb ha)
  rw [show flmRowStep lnJunk l l 0 l.length st i =
      flmInner st.1 0 l.length i (b2jMap lnJunk l (l.getD i default)) (fun _ => 0) st.2
      from rfl, hbest]
  refine ⟨d', s', h1, h2, ?_, ?_⟩
  · intro m hm
    rcases Nat.lt_or_ge m i with h | h
    · exact h3 m h
    · have hmi : m = i := by omega
      subst hmi
      by_cases hmem : m ∈ b2jMap lnJunk l (l.getD m default)
      · exact h4 m hmem
      · rw [Jrun_eq_zero_of_not_mem hmem]
        exact Nat.zero_le _
  · intro jx hjx
    match jx with
    | 0 =>
        rw [Jrun_succ_zero, if_pos hjx]
        simp
    | jj + 1 =>
        rw [Jrun_succ_succ, if_pos hjx]
        rw [if_neg (Nat.succ_ne_zero jj)]
        rw [show jj + 1 - 1 = jj from rfl, h5 jj]
        by_cases hmem : jj ∈ b2jMap lnJunk l (l.getD i default)
        · rw [if_pos hmem]
        · rw [if_neg hmem, Jrun_eq_zero_of_not_mem hmem]

theorem flmFold_diag (l : List String) :
    ∀ (cnt start : Nat) (st : (Nat → Nat) × (Nat × Nat × Nat)),
      start + cnt ≤ l.length →
      (∃ d s, st.2 = (d, d, s) ∧ d + s ≤ l.length ∧ (∀ m, m < start → Jrun l m m ≤ s)) →
      (∀ jx ∈ b2jMap lnJunk l (l.getD start default),
        (if jx = 0 then 0 else st.1 (jx - 1)) + 1 = Jrun l start jx) →
      ∃ d s, ((List.range' start cnt).foldl (flmRowStep lnJunk l l 0 l.length) st).2 =
          (d, d, s) ∧ d + s ≤ l.length := by
  intro cnt
  induction cnt with
  | zero =>
      intro start st _ hinv _
      obtain ⟨d, s, h1, h2, _⟩ := hinv
      exact ⟨d, s, h1, h2⟩
  | succ cnt ih =>
      intro start st hn hinv hold
      obtain ⟨d, s, hbest, hds, hrows⟩ := hinv
      have hstart : start < l.length := by omega
      obtain ⟨d', s', h1, h2, h3, h4⟩ := flmRowStep_diag l hstart st d s hbest hds hrows hold
      rw [show List.range' start (cnt + 1) = start :: List.range' (start + 1) cnt from rfl]
      rw [List.foldl_cons]
      exact ih (start + 1) (flmRowStep lnJunk l l 0 l.length st start) (by omega)
        ⟨d', s', h1, h2, h3⟩ h4

theorem extBack_diag (l : List String) : ∀ (d s : Nat),
    extBack lnJunk l l 0 0 false d (d, d, s) = (0, 0, s + d) := by
  intro d
  induction d with
  | zero => intro s; rfl
  | succ d ih =>
      intro s
      rw [extBack, if_pos ⟨Nat.succ_pos d, Nat.succ_pos d, rfl, rfl⟩]
      rw [show d + 1 - 1 = d from rfl, ih (s + 1)]
      rw [show s + 1 + d = s + (d + 1) from by omega]

theorem extFwd_diag (l : List String) : ∀ (f m : Nat), m ≤ l.length → l.length - m ≤ f →
    extFwd lnJunk l l l.length l.length false f (0, 0, m) = (0, 0, l.length) := by
  intro f
  induction f with
  | zero =>
      intro m h1 h2
      rw [show m = l.length from by omega]
      rfl
  | succ f ih =>
      intro m h1 h2
      by_cases hm : m < l.length
      · rw [extFwd, if_pos ⟨by omega, by omega, rfl, rfl⟩]
        exact ih (m + 1) (by omega) (by omega)
      · rw [show m = l.length from by omega, extFwd,
          if_neg (by rintro ⟨h, -⟩; omega)]

theorem extFwd_junk_done (l : List String) : ∀ f,
    extFwd lnJunk l l l.length l.length true f (0, 0, l.length) = (0, 0, l.length) := by
  intro f
  cases f with
  | zero => rfl
  | succ f => rw [extFwd, if_neg (by rintro ⟨h, -⟩; omega)]

/-- `find_longest_match` on two copies of the same list returns the whole
range: the dynamic programming leaves a diagonal best block and the
non-junk extension loops (no line is junk for `Differ`'s line-level
matcher) stretch it to the full sequence. -/
theorem find_longest_match_self (l : List String) :
    find_longest_match lnJunk l l 0 l.length 0 l.length = (0, 0, l.length) := by
  obtain ⟨d, s, hbest, hds⟩ := flmFold_diag l l.length 0 ((fun _ => 0), (0, 0, 0))
    (by omega)
    ⟨0, 0, rfl, by omega, fun m hm => absurd hm (Nat.not_lt_zero m)⟩
    (fun jx hjx => by rw [Jrun_zero, if_pos hjx, ite_self])
  rw [show find_longest_match lnJunk l l 0 l.length 0 l.length =
      (let st := (List.range' 0 (l.length - 0)).foldl (flmRowStep lnJunk l l 0 l.length)
        ((fun _ => 0), (0, 0, 0))
       let m1 := extBack lnJunk l l 0 0 false st.2.1 st.2
       let m2 := extFwd lnJunk l l l.length l.length false l.length m1
       let m3 := extBack lnJunk l l 0 0 true m2.1 m2
       extFwd lnJunk l l l.length l.length true l.length m3) from rfl]
  simp only [Nat.sub_zero]
  rw [hbest]
  rw [show ((d, d, s) : Nat × Nat × Nat).1 = d from rfl]
  rw [extBack_diag l d s]
  rw [extFwd_diag l l.length (s + d) (by omega) (by omega)]
  rw [show ((0, 0, l.length) : Nat × Nat × Nat).1 = 0 from rfl]
  rw [show extBack lnJunk l l 0 0 true 0 (0, 0, l.length) = (0, 0, l.length) from rfl]
  exact extFwd_junk_done l l.length

theorem dump_space_no_plus (b : List String) :
    ((b.map (fun s => (((' ' : Char), s) : Char × String))).filter
      (fun t => t.1 = '+')).map (fun t => t.2) = [] := by
  induction b with
  | nil => rfl
  | cons y ys ih => simp [ih]

/-- **C7.** For every pair of line sequences `(before, after)` with
`before == after`, `computeAddedLines` returns the empty sequence: the
matcher emits a single whole-range `equal` opcode, the differ dumps every
line with the `' '` tag, and no `'+'`-tagged line exists to extract. -/
theorem computeAddedLines_self (before : List String) :
    computeAddedLines before before = [] := by
  cases before with
  | nil => rfl
  | cons x xs =>
      have hn0 : (x :: xs).length ≠ 0 := by simp
      have hflm := find_longest_match_self (x :: xs)
      have hblocks : get_matching_blocks lnJunk (x :: xs) (x :: xs) =
          [(0, 0, (x :: xs).length), ((x :: xs).length, (x :: xs).length, 0)] := by
        rw [get_matching_blocks, matchBlocksGo, hflm]
        simp [mergeAdjacent, hn0]
      have hops : get_opcodes lnJunk (x :: xs) (x :: xs) =
          [("equal", 0, (x :: xs).length, 0, (x :: xs).length)] := by
        rw [get_opcodes, hblocks]
        simp [opcodesGo, hn0]
      simp only [computeAddedLines, differCompare, hops]
      simp only [List.flatMap_cons, List.flatMap_nil, List.append_nil]
      norm_num only
      simp only [dumpTagged, List.take_length, List.drop_zero]
      exact dump_space_no_plus (x :: xs)

/-- Invariant of one row of the `find_longest_match` DP: the `j2len`
values and the running best stay bounded by the region sizes, so the best
block always fits inside `[alo, ahi) x [blo, bhi)`. -/
theorem flmInner_bounds
    (j2lenOld : Nat → Nat) (blo bhi alo ahi i : Nat)
    (hi1 : alo ≤ i) (hi2 : i < ahi)
    (hold : ∀ jx, j2lenOld jx ≤ min (i - alo) (jx + 1 - blo)) :
    ∀ (js : List Nat) (nj : Nat → Nat) (best : Nat × Nat × Nat),
      (∀ jx, nj jx ≤ min (i + 1 - alo) (jx + 1 - blo)) →
      alo ≤ best.1 → blo ≤ best.2.1 → best.1 + best.2.2 ≤ ahi → best.2.1 + best.2.2 ≤ bhi →
      (∀ jx, (flmInner j2lenOld blo bhi i js nj best).1 jx ≤
          min (i + 1 - alo) (jx + 1 - blo)) ∧
      alo ≤ (flmInner j2lenOld blo bhi i js nj best).2.1 ∧
      blo ≤ (flmInner j2lenOld blo bhi i js nj best).2.2.1 ∧
      (flmInner j2lenOld blo bhi i js nj best).2.1 +
        (flmInner j2lenOld blo bhi i js nj best).2.2.2 ≤ ahi ∧
      (flmInner j2lenOld blo bhi i js nj best).2.2.1 +
        (flmInner j2lenOld blo bhi i js nj best).2.2.2 ≤ bhi := by
  intro js
  induction js with
  | nil =>
      intro nj best hnj h1 h2 h3 h4
      exact ⟨hnj, h1, h2, h3, h4⟩
  | cons j js' ih =>
      intro nj best hnj h1 h2 h3 h4
      by_cases hjlo : j < blo
      · rw [show flmInner j2lenOld blo bhi i (j :: js') nj best =
            flmInner j2lenOld blo bhi i js' nj best from by
          rw [flmInner, if_pos hjlo]]
        exact ih nj best hnj h1 h2 h3 h4
      · by_cases hjhi : bhi ≤ j
        · rw [show flmInner j2lenOld blo bhi i (j :: js') nj best =
              (nj, best) from by
            rw [flmInner, if_neg hjlo, if_pos hjhi]]
          exact ⟨hnj, h1, h2, h3, h4⟩
        · rw [show flmInner j2lenOld blo bhi i (j :: js') nj best =
              flmInner j2lenOld blo bhi i js'
                (fun jy => if jy = j then (if j = 0 then 0 else j2lenOld (j - 1)) + 1
                  else nj jy)
                (if best.2.2 < (if j = 0 then 0 else j2lenOld (j - 1)) + 1 then
                  (i + 1 - ((if j = 0 then 0 else j2lenOld (j - 1)) + 1),
                   j + 1 - ((if j = 0 then 0 else j2lenOld (j - 1)) + 1),
                   (if j = 0 then 0 else j2lenOld (j - 1)) + 1)
                 else best) from by
            rw [flmInner, if_neg hjlo, if_neg hjhi]]
        -- the new run length is bounded by the row and column indices
          have hkb : (if j = 0 then 0 else j2lenOld (j - 1)) + 1 ≤
              min (i + 1 - alo) (j + 1 - blo) := by
            split
            · omega
            · have := hold (j - 1)
              omega
          refine ih _ _ ?_ ?_ ?_ ?_ ?_
          · intro jx
            by_cases hx : jx = j
            · subst hx
              simp only [if_pos rfl]
              exact hkb
            · simp only [if_neg hx]
              exact hnj jx
          · by_cases hup : best.2.2 < (if j = 0 then 0 else j2lenOld (j - 1)) + 1
            · rw [if_pos hup]
              show alo ≤ i + 1 - ((if j = 0 then 0 else j2lenOld (j - 1)) + 1)
              omega
            · rw [if_neg hup]
              exact h1
          · by_cases hup : best.2.2 < (if j = 0 then 0 else j2lenOld (j - 1)) + 1
            · rw [if_pos hup]
              show blo ≤ j + 1 - ((if j = 0 then 0 else j2lenOld (j - 1)) + 1)
              omega
            · rw [if_neg hup]
              exact h2
          · by_cases hup : best.2.2 < (if j = 0 then 0 else j2lenOld (j - 1)) + 1
            · rw [if_pos hup]
              show i + 1 - ((if j = 0 then 0 else j2lenOld (j - 1)) + 1) +
                ((if j = 0 then 0 else j2lenOld (j - 1)) + 1) ≤ ahi
              omega
            · rw [if_neg hup]
              exact h3
          · by_cases hup : best.2.2 < (if j = 0 then 0 else j2lenOld (j - 1)) + 1
            · rw [if_pos hup]
              show j + 1 - ((if j = 0 then 0 else j2lenOld (j - 1)) + 1) +
                ((if j = 0 then 0 else j2lenOld (j - 1)) + 1) ≤ bhi
              omega
            · rw [if_neg hup]
              exact h4

/-- The fold over all rows of the DP preserves the block-fits-in-region
invariant of `flmInner_bounds`. -/
theorem flmFold_bounds {α : Type} [DecidableEq α] [Inhabited α]
    (junk : α → Bool) (a b : List α) (alo blo bhi : Nat) :
    ∀ (cnt start : Nat) (st : (Nat → Nat) × (Nat × Nat × Nat)),
      alo ≤ start →
      (∀ jx, st.1 jx ≤ min (start - alo) (jx + 1 - blo)) →
      alo ≤ st.2.1 → blo ≤ st.2.2.1 →
      st.2.1 + st.2.2.2 ≤ start + cnt → st.2.2.1 + st.2.2.2 ≤ bhi →
      alo ≤ ((List.range' start cnt).foldl (flmRowStep junk a b blo bhi) st).2.1 ∧
      blo ≤ ((List.range' start cnt).foldl (flmRowStep junk a b blo bhi) st).2.2.1 ∧
      ((List.range' start cnt).foldl (flmRowStep junk a b blo bhi) st).2.1 +
        ((List.range' start cnt).foldl (flmRowStep junk a b blo bhi) st).2.2.2 ≤ start + cnt ∧
      ((List.range' start cnt).foldl (flmRowStep junk a b blo bhi) st).2.2.1 +
        ((List.range' start cnt).foldl (flmRowStep junk a b blo bhi) st).2.2.2 ≤ bhi := by
  intro cnt
  induction cnt with
  | zero =>
      intro start st _ _ h1 h2 h3 h4
      exact ⟨h1, h2, by simpa using h3, h4⟩
  | succ cnt ih =>
      intro start st hstart hj2 h1 h2 h3 h4
      rw [show List.range' start (cnt + 1) = start :: List.range' (start + 1) cnt from rfl,
        List.foldl_cons]
      have hx := flmInner_bounds st.1 blo bhi alo (start + cnt + 1) start hstart (by omega)
        hj2 (b2jMap junk b (a.getD start default)) (fun _ => 0) st.2
        (fun jx => show (0 : Nat) ≤ min (start + 1 - alo) (jx + 1 - blo) from by omega)
        h1 h2 (by omega) h4
      have heq : flmRowStep junk a b blo bhi st start =
          flmInner st.1 blo bhi start (b2jMap junk b (a.getD start default))
            (fun _ => 0) st.2 := rfl
      have := ih (start + 1) (flmRowStep junk a b blo bhi st start) (by omega)
        (by
          intro jx
          rw [heq]
          have := hx.1 jx
          omega)
        (by rw [heq]; exact hx.2.1)
        (by rw [heq]; exact hx.2.2.1)
        (by rw [heq]; have := hx.2.2.2.1; omega)
        (by rw [heq]; exact hx.2.2.2.2)
      rw [show start + 1 + cnt = start + (cnt + 1) from by omega] at this
      exact this

/-- The backward extension loops of `find_longest_match` keep the block
inside the region and never decrease its endpoints below `alo, blo`. -/
theorem extBack_bounds {α : Type} [DecidableEq α] [Inhabited α]
    (junk : α → Bool) (a b : List α) (alo blo : Nat) (ph : Bool) (ahi bhi : Nat) :
    ∀ (fuel : Nat) (st : Nat × Nat × Nat),
      alo ≤ st.1 → blo ≤ st.2.1 → st.1 + st.2.2 ≤ ahi → st.2.1 + st.2.2 ≤ bhi →
      alo ≤ (extBack junk a b alo blo ph fuel st).1 ∧
      blo ≤ (extBack junk a b alo blo ph fuel st).2.1 ∧
      (extBack junk a b alo blo ph fuel st).1 + (extBack junk a b alo blo ph fuel st).2.2 ≤ ahi ∧
      (extBack junk a b alo blo ph fuel st).2.1 + (extBack junk a b alo blo ph fuel st).2.2 ≤ bhi := by
  intro fuel
  induction fuel with
  | zero => intro st h1 h2 h3 h4; exact ⟨h1, h2, h3, h4⟩
  | succ fuel ih =>
      intro st h1 h2 h3 h4
      obtain ⟨bi, bj, bs⟩ := st
      have h1' : alo ≤ bi := h1
      have h2' : blo ≤ bj := h2
      have h3' : bi + bs ≤ ahi := h3
      have h4' : bj + bs ≤ bhi := h4
      rw [extBack]
      split
      · rename_i hcond
        obtain ⟨hc1, hc2, -, -⟩ := hcond
        exact ih (bi - 1, bj - 1, bs + 1) (show alo ≤ bi - 1 from by omega)
          (show blo ≤ bj - 1 from by omega) (show bi - 1 + (bs + 1) ≤ ahi from by omega)
          (show bj - 1 + (bs + 1) ≤ bhi from by omega)
      · exact ⟨h1', h2', h3', h4'⟩

/-- The forward extension loops of `find_longest_match` keep the block
inside the region and never push its end past `ahi, bhi`. -/
theorem extFwd_bounds {α : Type} [DecidableEq α] [Inhabited α]
    (junk : α → Bool) (a b : List α) (ahi bhi : Nat) (ph : Bool) (alo blo : Nat) :
    ∀ (fuel : Nat) (st : Nat × Nat × Nat),
      alo ≤ st.1 → blo ≤ st.2.1 → st.1 + st.2.2 ≤ ahi → st.2.1 + st.2.2 ≤ bhi →
      alo ≤ (extFwd junk a b ahi bhi ph fuel st).1 ∧
      blo ≤ (extFwd junk a b ahi bhi ph fuel st).2.1 ∧
      (extFwd junk a b ahi bhi ph fuel st).1 + (extFwd junk a b ahi bhi ph fuel st).2.2 ≤ ahi ∧
      (extFwd junk a b ahi bhi ph fuel st).2.1 + (extFwd junk a b ahi bhi ph fuel st).2.2 ≤ bhi := by
  intro fuel
  induction fuel with
  | zero => intro st h1 h2 h3 h4; exact ⟨h1, h2, h3, h4⟩
  | succ fuel ih =>
      intro st h1 h2 h3 h4
      obtain ⟨bi, bj, bs⟩ := st
      have h1' : alo ≤ bi := h1
      have h2' : blo ≤ bj := h2
      have h3' : bi + bs ≤ ahi := h3
      have h4' : bj + bs ≤ bhi := h4
      rw [extFwd]
      split
      · rename_i hcond
        obtain ⟨hc1, hc2, -, -⟩ := hcond
        exact ih (bi, bj, bs + 1) h1' h2'
          (show bi + (bs + 1) ≤ ahi from by omega)
          (show bj + (bs + 1) ≤ bhi from by omega)
      · exact ⟨h1', h2', h3', h4'⟩

/-- The contract stated in the docstring of `find_longest_match`: the
returned match lies within the requested region.  This justifies the fuel
passed by `get_matching_blocks` (each recursion strictly shrinks the
region, see `matchBlocksGo_fuel_irrelevant` below). -/
theorem find_longest_match_bounds {α : Type} [DecidableEq α] [Inhabited α]
    (junk : α → Bool) (a b : List α) (alo ahi blo bhi : Nat)
    (ha : alo ≤ ahi) (hb : blo ≤ bhi) :
    alo ≤ (find_longest_match junk a b alo ahi blo bhi).1 ∧
    blo ≤ (find_longest_match junk a b alo ahi blo bhi).2.1 ∧
    (find_longest_match junk a b alo ahi blo bhi).1 +
      (find_longest_match junk a b alo ahi blo bhi).2.2 ≤ ahi ∧
    (find_longest_match junk a b alo ahi blo bhi).2.1 +
      (find_longest_match junk a b alo ahi blo bhi).2.2 ≤ bhi := by
  set st0 := (List.range' alo (ahi - alo)).foldl (flmRowStep junk a b blo bhi)
    ((fun _ => 0), (alo, blo, 0)) with hst0
  have hfold := flmFold_bounds junk a b alo blo bhi (ahi - alo) alo
    ((fun _ => 0), (alo, blo, 0)) (le_refl alo)
    (fun jx => show (0 : Nat) ≤ min (alo - alo) (jx + 1 - blo) from by omega)
    (show alo ≤ alo from le_refl alo)
    (show blo ≤ blo from le_refl blo)
    (show alo + 0 ≤ alo + (ahi - alo) from by omega)
    (show blo + 0 ≤ bhi from by omega)
  rw [← hst0] at hfold
  rw [show alo + (ahi - alo) = ahi from by omega] at hfold
  have h1 := extBack_bounds junk a b alo blo false ahi bhi st0.2.1 st0.2
    hfold.1 hfold.2.1 hfold.2.2.1 hfold.2.2.2
  set m1 := extBack junk a b alo blo false st0.2.1 st0.2 with hm1
  have h2 := extFwd_bounds junk a b ahi bhi false alo blo ahi m1
    h1.1 h1.2.1 h1.2.2.1 h1.2.2.2
  set m2 := extFwd junk a b ahi bhi false ahi m1 with hm2
  have h3 := extBack_bounds junk a b alo blo true ahi bhi m2.1 m2
    h2.1 h2.2.1 h2.2.2.1 h2.2.2.2
  set m3 := extBack junk a b alo blo true m2.1 m2 with hm3
  have h4 := extFwd_bounds junk a b ahi bhi true alo blo ahi m3
    h3.1 h3.2.1 h3.2.2.1 h3.2.2.2
  have hdef : find_longest_match junk a b alo ahi blo bhi =
      extFwd junk a b ahi bhi true ahi m3 := by
    rw [hm3, hm2, hm1, hst0]
    rfl
  rw [hdef]
  exact h4

/-- The fuel passed to `matchBlocksGo` is irrelevant as soon as it exceeds
the combined region size: every larger fuel computes the same block list.
Together with `find_longest_match_bounds` this shows the
`a.length + b.length + 1` fuel of `get_matching_blocks` reproduces the
unbounded worklist loop of the Python source. -/
theorem matchBlocksGo_fuel_irrelevant {α : Type} [DecidableEq α] [Inhabited α]
    (junk : α → Bool) (a b : List α) :
    ∀ (f1 f2 alo ahi blo bhi : Nat), alo ≤ ahi → blo ≤ bhi →
      (ahi - alo) + (bhi - blo) < f1 → (ahi - alo) + (bhi - blo) < f2 →
      matchBlocksGo junk a b f1 alo ahi blo bhi = matchBlocksGo junk a b f2 alo ahi blo bhi := by
  intro f1
  induction f1 with
  | zero =>
      intro f2 alo ahi blo bhi _ _ hf1 _
      omega
  | succ f1 ih =>
      intro f2 alo ahi blo bhi ha hb hf1 hf2
      match f2, hf2 with
      | f2 + 1, hf2 =>
        obtain ⟨hb1, hb2, hb3, hb4⟩ := find_longest_match_bounds junk a b alo ahi blo bhi ha hb
        rw [matchBlocksGo, matchBlocksGo]
        by_cases hk : (find_longest_match junk a b alo ahi blo bhi).2.2 = 0
        · rw [if_pos hk, if_pos hk]
        · rw [if_neg hk, if_neg hk]
          have hilt : (find_longest_match junk a b alo ahi blo bhi).1 < ahi := by omega
          have hjlt : (find_longest_match junk a b alo ahi blo bhi).2.1 < bhi := by omega
          by_cases hc1 : alo < (find_longest_match junk a b alo ahi blo bhi).1 ∧
              blo < (find_longest_match junk a b alo ahi blo bhi).2.1
          · rw [if_pos hc1, if_pos hc1, ih f2 alo _ blo _ hb1 hb2 (by omega) (by omega)]
            by_cases hc2 : (find_longest_match junk a b alo ahi blo bhi).1 +
                  (find_longest_match junk a b alo ahi blo bhi).2.2 < ahi ∧
                (find_longest_match junk a b alo ahi blo bhi).2.1 +
                  (find_longest_match junk a b alo ahi blo bhi).2.2 < bhi
            · rw [if_pos hc2, if_pos hc2,
                ih f2 _ ahi _ bhi (by omega) (by omega) (by omega) (by omega)]
            · rw [if_neg hc2, if_neg hc2]
          · rw [if_neg hc1, if_neg hc1]
            by_cases hc2 : (find_longest_match junk a b alo ahi blo bhi).1 +
                  (find_longest_match junk a b alo ahi blo bhi).2.2 < ahi ∧
                (find_longest_match junk a b alo ahi blo bhi).2.1 +
                  (find_longest_match junk a b alo ahi blo bhi).2.2 < bhi
            · rw [if_pos hc2, if_pos hc2,
                ih f2 _ ahi _ bhi (by omega) (by omega) (by omega) (by omega)]
            · rw [if_neg hc2, if_neg hc2]

/-- With `besti = 0` the backward extension loop is already done, whatever
fuel remains. -/
theorem extBack_done {α : Type} [DecidableEq α] [Inhabited α]
    (junk : α → Bool) (a b : List α) (alo blo : Nat) (ph : Bool)
    (bj bs : Nat) (f : Nat) :
    extBack junk a b alo blo ph f (0, bj, bs) = (0, bj, bs) := by
  cases f with
  | zero => rfl
  | succ f => rw [extBack, if_neg (by rintro ⟨h, -⟩; omega)]

/-- The fuel passed to `extBack` is irrelevant as soon as it is at least
`besti`: the loop decrements `besti` each iteration and stops at `alo`, so
the `besti` fuel used by `find_longest_match` reproduces the unbounded
`while` loop of the Python source. -/
theorem extBack_fuel_irrelevant {α : Type} [DecidableEq α] [Inhabited α]
    (junk : α → Bool) (a b : List α) (alo blo : Nat) (ph : Bool) :
    ∀ (bi f1 f2 bj bs : Nat), bi ≤ f1 → bi ≤ f2 →
      extBack junk a b alo blo ph f1 (bi, bj, bs) =
        extBack junk a b alo blo ph f2 (bi, bj, bs) := by
  intro bi
  induction bi with
  | zero =>
      intro f1 f2 bj bs _ _
      rw [extBack_done, extBack_done]
  | succ bi ih =>
      intro f1 f2 bj bs h1 h2
      match f1, h1, f2, h2 with
      | f1 + 1, h1, f2 + 1, h2 =>
        rw [extBack, extBack]
        by_cases hc : alo < bi + 1 ∧ blo < bj ∧
            isbjunk junk b (b.getD (bj - 1) default) = ph ∧
            a.getD (bi + 1 - 1) default = b.getD (bj - 1) default
        · rw [if_pos hc, if_pos hc]
          exact ih f1 f2 (bj - 1) (bs + 1) (by omega) (by omega)
        · rw [if_neg hc, if_neg hc]

/-- With `besti + bestsize` at the upper bound the forward extension loop
is already done, whatever fuel remains. -/
theorem extFwd_done {α : Type} [DecidableEq α] [Inhabited α]
    (junk : α → Bool) (a b : List α) (ahi bhi : Nat) (ph : Bool)
    (bi bj bs : Nat) (hstop : ¬bi + bs < ahi) (f : Nat) :
    extFwd junk a b ahi bhi ph f (bi, bj, bs) = (bi, bj, bs) := by
  cases f with
  | zero => rfl
  | succ f => rw [extFwd, if_neg (by rintro ⟨h, -⟩; omega)]

/-- The fuel passed to `extFwd` is irrelevant as soon as it is at least
`ahi - besti - bestsize`: the loop grows `bestsize` each iteration while
`besti + bestsize < ahi`, so the `ahi` fuel used by `find_longest_match`
reproduces the unbounded `while` loop of the Python source. -/
theorem extFwd_fuel_irrelevant {α : Type} [DecidableEq α] [Inhabited α]
    (junk : α → Bool) (a b : List α) (ahi bhi : Nat) (ph : Bool) :
    ∀ (f1 f2 bi bj bs : Nat), ahi - bi - bs ≤ f1 → ahi - bi - bs ≤ f2 →
      extFwd junk a b ahi bhi ph f1 (bi, bj, bs) =
        extFwd junk a b ahi bhi ph f2 (bi, bj, bs) := by
  intro f1
  induction f1 with
  | zero =>
      intro f2 bi bj bs h1 _
      rw [extFwd_done junk a b ahi bhi ph bi bj bs (by omega),
        extFwd_done junk a b ahi bhi ph bi bj bs (by omega)]
  | succ f1 ih =>
      intro f2 bi bj bs h1 h2
      by_cases hstop : bi + bs < ahi
      · match f2, h2 with
        | 0, h2 => omega
        | f2 + 1, h2 =>
          rw [extFwd, extFwd]
          by_cases hc : bi + bs < ahi ∧ bj + bs < bhi ∧
              isbjunk junk b (b.getD (bj + bs) default) = ph ∧
              a.getD (bi + bs) default = b.getD (bj + bs) default
          · rw [if_pos hc, if_pos hc]
            exact ih f2 bi bj (bs + 1) (by omega) (by omega)
          · rw [if_neg hc, if_neg hc]
      · rw [extFwd_done junk a b ahi bhi ph bi bj bs hstop,
          extFwd_done junk a b ahi bhi ph bi bj bs hstop]

/-- Range invariant of the inner best-ratio scan of `_fancy_replace`: any
recorded best pair or first-equal pair lies in the scanned region. -/
theorem fancyScanInner_range (a b : List String) (bj : String) (j : Nat)
    (alo ahi blo bhi : Nat) (hj1 : blo ≤ j) (hj2 : j < bhi) :
    ∀ (is : List Nat) (st : (ℚ × Nat × Nat) × Option (Nat × Nat)),
      (∀ i ∈ is, alo ≤ i ∧ i < ahi) →
      ((74 / 100 : ℚ) < st.1.1 →
        alo ≤ st.1.2.1 ∧ st.1.2.1 < ahi ∧ blo ≤ st.1.2.2 ∧ st.1.2.2 < bhi) →
      (∀ e, st.2 = some e → alo ≤ e.1 ∧ e.1 < ahi ∧ blo ≤ e.2 ∧ e.2 < bhi) →
      (((74 / 100 : ℚ) < (fancyScanInner a bj j is st).1.1 →
        alo ≤ (fancyScanInner a bj j is st).1.2.1 ∧
          (fancyScanInner a bj j is st).1.2.1 < ahi ∧
          blo ≤ (fancyScanInner a bj j is st).1.2.2 ∧
          (fancyScanInner a bj j is st).1.2.2 < bhi) ∧
       (∀ e, (fancyScanInner a bj j is st).2 = some e →
        alo ≤ e.1 ∧ e.1 < ahi ∧ blo ≤ e.2 ∧ e.2 < bhi)) := by
  intro is
  induction is with
  | nil =>
      intro st his hbr heq
      exact ⟨hbr, heq⟩
  | cons i is' ih =>
      intro st his hbr heq
      obtain ⟨⟨br, bsti, bstj⟩, eq⟩ := st
      have hi := his i (List.mem_cons_self i is')
      have his' : ∀ x ∈ is', alo ≤ x ∧ x < ahi :=
        fun x hx => his x (List.mem_cons_of_mem i hx)
      cases eq with
      | none =>
          rw [show fancyScanInner a bj j (i :: is') ((br, bsti, bstj), none) =
              if a.getD i "" = bj then
                fancyScanInner a bj j is' ((br, bsti, bstj), some (i, j))
              else if realQuickRatioValue (a.getD i "").data bj.data > br ∧
                  quickRatioValue (a.getD i "").data bj.data > br ∧
                  ratioValue charJunk (a.getD i "").data bj.data > br then
                fancyScanInner a bj j is'
                  ((ratioValue charJunk (a.getD i "").data bj.data, i, j), none)
              else fancyScanInner a bj j is' ((br, bsti, bstj), none) from rfl]
          by_cases hab : a.getD i "" = bj
          · rw [if_pos hab]
            refine ih _ his' hbr ?_
            intro e he
            have he' : e = (i, j) := by
              cases he
              rfl
            subst he'
            exact ⟨hi.1, hi.2, hj1, hj2⟩
          · rw [if_neg hab]
            by_cases hrq : realQuickRatioValue (a.getD i "").data bj.data > br ∧
                quickRatioValue (a.getD i "").data bj.data > br ∧
                ratioValue charJunk (a.getD i "").data bj.data > br
            · rw [if_pos hrq]
              exact ih _ his' (fun _ => ⟨hi.1, hi.2, hj1, hj2⟩) heq
            · rw [if_neg hrq]
              exact ih _ his' hbr heq
      | some ep =>
          rw [show fancyScanInner a bj j (i :: is') ((br, bsti, bstj), some ep) =
              if a.getD i "" = bj then
                fancyScanInner a bj j is' ((br, bsti, bstj), some ep)
              else if realQuickRatioValue (a.getD i "").data bj.data > br ∧
                  quickRatioValue (a.getD i "").data bj.data > br ∧
                  ratioValue charJunk (a.getD i "").data bj.data > br then
                fancyScanInner a bj j is'
                  ((ratioValue charJunk (a.getD i "").data bj.data, i, j), some ep)
              else fancyScanInner a bj j is' ((br, bsti, bstj), some ep) from rfl]
          by_cases hab : a.getD i "" = bj
          · rw [if_pos hab]
            exact ih _ his' hbr heq
          · rw [if_neg hab]
            by_cases hrq : realQuickRatioValue (a.getD i "").data bj.data > br ∧
                quickRatioValue (a.getD i "").data bj.data > br ∧
                ratioValue charJunk (a.getD i "").data bj.data > br
            · rw [if_pos hrq]
              exact ih _ his' (fun _ => ⟨hi.1, hi.2, hj1, hj2⟩) heq
            · rw [if_neg hrq]
              exact ih _ his' hbr heq

/-- Range invariant of the outer best-ratio scan of `_fancy_replace`. -/
theorem fancyScanOuter_range (a b : List String) (alo ahi blo bhi : Nat) :
    ∀ (js : List Nat) (st : (ℚ × Nat × Nat) × Option (Nat × Nat)),
      (∀ x ∈ js, blo ≤ x ∧ x < bhi) →
      ((74 / 100 : ℚ) < st.1.1 →
        alo ≤ st.1.2.1 ∧ st.1.2.1 < ahi ∧ blo ≤ st.1.2.2 ∧ st.1.2.2 < bhi) →
      (∀ e, st.2 = some e → alo ≤ e.1 ∧ e.1 < ahi ∧ blo ≤ e.2 ∧ e.2 < bhi) →
      (((74 / 100 : ℚ) < (fancyScanOuter a b alo ahi js st).1.1 →
        alo ≤ (fancyScanOuter a b alo ahi js st).1.2.1 ∧
          (fancyScanOuter a b alo ahi js st).1.2.1 < ahi ∧
          blo ≤ (fancyScanOuter a b alo ahi js st).1.2.2 ∧
          (fancyScanOuter a b alo ahi js st).1.2.2 < bhi) ∧
       (∀ e, (fancyScanOuter a b alo ahi js st).2 = some e →
        alo ≤ e.1 ∧ e.1 < ahi ∧ blo ≤ e.2 ∧ e.2 < bhi)) := by
  intro js
  induction js with
  | nil =>
      intro st _ hbr heq
      exact ⟨hbr, heq⟩
  | cons j js' ih =>
      intro st hjs hbr heq
      have hj := hjs j (List.mem_cons_self j js')
      have hjs' : ∀ x ∈ js', blo ≤ x ∧ x < bhi :=
        fun x hx => hjs x (List.mem_cons_of_mem j hx)
      rw [show fancyScanOuter a b alo ahi (j :: js') st =
          fancyScanOuter a b alo ahi js'
            (fancyScanInner a (b.getD j "") j (List.range' alo (ahi - alo)) st) from rfl]
      have hinner := fancyScanInner_range a b (b.getD j "") j alo ahi blo bhi hj.1 hj.2
        (List.range' alo (ahi - alo)) st
        (fun i hmem => by
          rw [List.mem_range'_1] at hmem
          omega)
        hbr heq
      exact ih _ hjs' hinner.1 hinner.2

/-- The fuel passed to `fancyReplaceF` is irrelevant as soon as it exceeds
the combined region size: the synch point returned by the best-ratio scan
lies strictly inside the region (`fancyScanOuter_range`), so each
recursive call strictly shrinks `(ahi - alo) + (bhi - blo)`.  This shows
the `(ahi - alo) + (bhi - blo) + 1` fuel passed by `differCompare`
reproduces the unbounded mutual recursion of `_fancy_replace` and
`_fancy_helper` in the Python source. -/
theorem fancyReplaceF_fuel_irrelevant (a b : List String) :
    ∀ (f1 f2 alo ahi blo bhi : Nat),
      (ahi - alo) + (bhi - blo) < f1 → (ahi - alo) + (bhi - blo) < f2 →
      fancyReplaceF f1 a alo ahi b blo bhi = fancyReplaceF f2 a alo ahi b blo bhi := by
  intro f1
  induction f1 with
  | zero =>
      intro f2 alo ahi blo bhi hf1 _
      omega
  | succ f1 ih =>
      intro f2 alo ahi blo bhi hf1 hf2
      match f2, hf2 with
      | f2 + 1, hf2 =>
        rcases hscan : fancyScanOuter a b alo ahi (List.range' blo (bhi - blo))
          ((74 / 100, 0, 0), none) with ⟨⟨br, bi0, bj0⟩, eqv⟩
        have hrange := fancyScanOuter_range a b alo ahi blo bhi
          (List.range' blo (bhi - blo)) ((74 / 100, 0, 0), none)
          (fun x hx => by
            rw [List.mem_range'_1] at hx
            omega)
          (fun h => absurd h (lt_irrefl _))
          (fun e he => by cases he)
        rw [hscan] at hrange
        rw [fancyReplaceF, fancyReplaceF, hscan]
        by_cases hplain : br < (3 / 4 : ℚ) ∧ eqv = none
        · have hplain2 : ((br, bi0, bj0), eqv).1.1 < (3 / 4 : ℚ) ∧
              ((br, bi0, bj0), eqv).2 = none := hplain
          rw [if_pos hplain2, if_pos hplain2]
        · have hplain2 : ¬(((br, bi0, bj0), eqv).1.1 < (3 / 4 : ℚ) ∧
              ((br, bi0, bj0), eqv).2 = none) := hplain
          rw [if_neg hplain2, if_neg hplain2]
          by_cases hcut : br < (3 / 4 : ℚ)
          · have heqv : eqv ≠ none := fun h => hplain ⟨hcut, h⟩
            obtain ⟨⟨ei, ej⟩, heq⟩ : ∃ e, eqv = some e := by
              cases eqv with
              | none => exact absurd rfl heqv
              | some e => exact ⟨e, rfl⟩
            subst heq
            have hei : alo ≤ ei ∧ ei < ahi ∧ blo ≤ ej ∧ ej < bhi :=
              hrange.2 (ei, ej) rfl
            have hihL : fancyReplaceF f1 a alo ei b blo ej =
                fancyReplaceF f2 a alo ei b blo ej :=
              ih f2 alo ei blo ej (by omega) (by omega)
            have hihR : fancyReplaceF f1 a (ei + 1) ahi b (ej + 1) bhi =
                fancyReplaceF f2 a (ei + 1) ahi b (ej + 1) bhi :=
              ih f2 (ei + 1) ahi (ej + 1) bhi (by omega) (by omega)
            simp only [if_pos hcut, Option.getD_some]
            rw [hihL, hihR]
          · have h74 : (74 / 100 : ℚ) < br :=
              lt_of_lt_of_le (by norm_num) (not_lt.mp hcut)
            have hbi : alo ≤ bi0 ∧ bi0 < ahi ∧ blo ≤ bj0 ∧ bj0 < bhi :=
              hrange.1 h74
            have hihL : fancyReplaceF f1 a alo bi0 b blo bj0 =
                fancyReplaceF f2 a alo bi0 b blo bj0 :=
              ih f2 alo bi0 blo bj0 (by omega) (by omega)
            have hihR : fancyReplaceF f1 a (bi0 + 1) ahi b (bj0 + 1) bhi =
                fancyReplaceF f2 a (bi0 + 1) ahi b (bj0 + 1) bhi :=
              ih f2 (bi0 + 1) ahi (bj0 + 1) bhi (by omega) (by omega)
            simp only [if_neg hcut]
            rw [hihL, hihR]
